import Mathlib

/-!
Verification of the diff computation pipeline of the Differ repository
(`src/domain/diff.ts`): text/CSV parsing, line diffing with modification
blocks, per-cell CSV diffing, header generation and CSV re-serialization.

Strings are embedded as Lean `String` (a structure over `List Char`), and
the imperative loops of the source are written as structural recursions on
character and row lists.  The external `diff` library (jsdiff) used by the
source for `diffWords` and `diffArrays` is not part of the repository's
sources; it is modelled from the specification (tokenize into word-ish
tokens, LCS-style alignment into kept/removed/added runs).
-/

namespace Differ

/-! ## Data model (`DiffConfig`, `WordChange`, `DiffLine`, CSV types) -/

inductive DiffMode
  | text
  | csv
deriving DecidableEq, Repr

structure DiffConfig where
  mode : DiffMode
  hideUnchangedRows : Bool
  beforeAfterColumn : Bool
  firstRowIsHeader : Bool
deriving DecidableEq, Repr

structure WordChange where
  value : String
  added : Bool
  removed : Bool
deriving DecidableEq, Repr

inductive DiffLineType
  | added
  | removed
  | unchanged
deriving DecidableEq, Repr

structure DiffLine where
  type : DiffLineType
  content : String
  beforeLineNumber : Option Nat
  afterLineNumber : Option Nat
  wordChanges : Option (List WordChange)
deriving DecidableEq, Repr

/-- A `CSVRow` is an ordered list of string cells. -/
abbrev CSVRow := List String

structure DiffCell where
  before : String
  after : String
  hasChange : Bool
  wordChanges : List WordChange
deriving DecidableEq, Repr

structure DiffRow where
  rowNumber : Nat
  cells : List DiffCell
  hasChanges : Bool
deriving DecidableEq, Repr

structure DiffTable where
  headers : List String
  rows : List DiffRow
deriving DecidableEq, Repr

/-! ## String helpers -/

/-- Concatenation of a list of strings (JS `array.join("")`). -/
def strJoin : List String → String
  | [] => ""
  | s :: ss => s ++ strJoin ss

/-- JS `array.join(sep)`. -/
def strJoinSep (sep : String) : List String → String
  | [] => ""
  | [s] => s
  | s :: ss => s ++ sep ++ strJoinSep sep ss

/-- JS `text.split(sep)` for a single-character separator; always returns at
least one (possibly empty) piece. -/
def splitOnChar (sep : Char) : List Char → List (List Char)
  | [] => [[]]
  | c :: cs =>
    match splitOnChar sep cs with
    | [] => [[c]]
    | h :: t => if c = sep then [] :: h :: t else (c :: h) :: t

/-! ## Text parsing (`parseTextToLines`) -/

/-- Source `parseTextToLines`: split on newline (`text.split(/\n/)`). -/
def parseTextToLines (text : String) : List String :=
  (splitOnChar '\n' text.data).map String.mk

/-! ## Word-change engine, modelled from the spec

The source delegates to the external jsdiff library
(`diff.diffWords`, `diff.diffArrays`), which is not part of this
repository.  Modelled from the spec: the engine tokenizes both strings into
word-ish tokens (maximal runs of the same character class: whitespace,
alphanumeric, other), aligns the two token sequences via an LCS-style
minimum-edit alignment into kept/removed/added runs, and when the two
inputs are equal returns a single unchanged fragment equal to the full
string. -/

/-- Character class used by the word tokenizer (whitespace / alphanumeric /
other). -/
def charKind (c : Char) : Nat :=
  if c.isWhitespace then 0 else if c.isAlphanum then 1 else 2

/-- Group consecutive characters of the same class into tokens. -/
def tokenizeAux : List Char → List (List Char)
  | [] => []
  | c :: cs =>
    match tokenizeAux cs with
    | [] => [[c]]
    | [] :: ts => [c] :: [] :: ts
    | (d :: ds) :: ts =>
      if charKind c = charKind d then (c :: d :: ds) :: ts
      else [c] :: (d :: ds) :: ts

/-- Tokenize a string into word-ish tokens. -/
def tokenize (s : String) : List String :=
  (tokenizeAux s.data).map String.mk

/-- One step of an edit script over a sequence of comparable units. -/
inductive Edit (α : Type) where
  | keep (a : α)
  | del (a : α)
  | ins (a : α)
deriving DecidableEq, Repr

/-- Cost of an edit script: the number of deleted plus inserted elements. -/
def editCost {α : Type} : List (Edit α) → Nat
  | [] => 0
  | .keep _ :: es => editCost es
  | .del _ :: es => 1 + editCost es
  | .ins _ :: es => 1 + editCost es

/-- Fuel-driven core of the LCS-style minimum-edit alignment; the fuel is
always at least the sum of the two lengths at the top-level call, so the
zero-fuel branch is unreachable. -/
def diffEditsFuel {α : Type} [DecidableEq α] : Nat → List α → List α → List (Edit α)
  | _, [], ys => ys.map .ins
  | _, x :: xs, [] => (x :: xs).map .del
  | 0, _ :: _, _ :: _ => []
  | n + 1, x :: xs, y :: ys =>
    if x = y then .keep x :: diffEditsFuel n xs ys
    else
      let d := .del x :: diffEditsFuel n xs (y :: ys)
      let i := .ins y :: diffEditsFuel n (x :: xs) ys
      if editCost d ≤ editCost i then d else i

/-- LCS-style minimum-edit alignment of two sequences, preferring deletion
on ties so that removals are emitted before additions. -/
def diffEdits {α : Type} [DecidableEq α] (xs ys : List α) : List (Edit α) :=
  diffEditsFuel (xs.length + ys.length) xs ys

inductive RunTag
  | kept
  | removed
  | added
deriving DecidableEq, Repr

/-- A contiguous run of elements sharing one alignment tag. -/
structure Run (α : Type) where
  tag : RunTag
  items : List α
deriving DecidableEq, Repr

def tagOf {α : Type} : Edit α → RunTag
  | .keep _ => .kept
  | .del _ => .removed
  | .ins _ => .added

def itemOf {α : Type} : Edit α → α
  | .keep a => a
  | .del a => a
  | .ins a => a

/-- Merge consecutive edit steps with the same tag into runs. -/
def mergeEdits {α : Type} : List (Edit α) → List (Run α)
  | [] => []
  | e :: es =>
    match mergeEdits es with
    | [] => [⟨tagOf e, [itemOf e]⟩]
    | r :: rs =>
      if tagOf e = r.tag then ⟨r.tag, itemOf e :: r.items⟩ :: rs
      else ⟨tagOf e, [itemOf e]⟩ :: r :: rs

/-- Modelled from the spec: jsdiff `diffWords`.  Tokenizes both strings,
aligns the token lists, and maps each run to a fragment whose value is the
concatenation of the run's tokens; equal inputs yield a single unchanged
fragment equal to the full string. -/
def diffWords (before after : String) : List WordChange :=
  if before = after then [⟨before, false, false⟩]
  else
    (mergeEdits (diffEdits (tokenize before) (tokenize after))).map
      (fun r => ⟨strJoin r.items, r.tag = RunTag.added, r.tag = RunTag.removed⟩)

/-- Modelled from the spec: jsdiff `diffArrays`, the LCS-based sequence
aligner over line arrays, producing kept/removed/added runs. -/
def diffArrays (before after : List String) : List (Run String) :=
  mergeEdits (diffEdits before after)

/-- Source `computeWordChanges`: thin wrapper over the word-change engine. -/
def computeWordChanges (before after : String) : List WordChange :=
  diffWords before after

/-! ## Line-diff builder (`createDiffLines`) -/

/-- Pairs `("", y)` for the added lines left after the removed lines ran
out. -/
def padLeft : List String → List (String × String)
  | [] => []
  | y :: ys => ("", y) :: padLeft ys

/-- Pair up removed and added lines positionally up to the longer side's
length, padding the shorter side with `""` (JS `lines[j] || ""`). -/
def padPairs : List String → List String → List (String × String)
  | [], ys => padLeft ys
  | x :: xs, ys => (x, ys.headD "") :: padPairs xs (ys.drop 1)

/-- Emitted lines of a modification block: for each positional pair compute
word changes, emit a removed line when the before side is non-empty and an
added line when the after side is non-empty, advancing the counters only
for sides actually emitted. -/
def modBlockAux : List (String × String) → Nat → Nat → List DiffLine
  | [], _, _ => []
  | (bl, al) :: rest, b, a =>
    let wc := computeWordChanges bl al
    (if bl ≠ "" then [⟨.removed, bl, some b, none, some wc⟩] else []) ++
    (if al ≠ "" then [⟨.added, al, none, some a, some wc⟩] else []) ++
    modBlockAux rest (if bl ≠ "" then b + 1 else b) (if al ≠ "" then a + 1 else a)

/-- Number of pairs whose before side is non-empty (before-counter advance
of a modification block). -/
def cntB (ps : List (String × String)) : Nat :=
  (ps.filter (fun p => p.1 ≠ "")).length

/-- Number of pairs whose after side is non-empty. -/
def cntA (ps : List (String × String)) : Nat :=
  (ps.filter (fun p => p.2 ≠ "")).length

/-- Plain removed lines of a pure removal run. -/
def removedLinesFrom : List String → Nat → List DiffLine
  | [], _ => []
  | l :: ls, b => ⟨.removed, l, some b, none, none⟩ :: removedLinesFrom ls (b + 1)

/-- Plain added lines of a pure addition run. -/
def addedLinesFrom : List String → Nat → List DiffLine
  | [], _ => []
  | l :: ls, a => ⟨.added, l, none, some a, none⟩ :: addedLinesFrom ls (a + 1)

/-- Unchanged lines of a kept run, carrying both counters. -/
def unchangedLinesFrom : List String → Nat → Nat → List DiffLine
  | [], _, _ => []
  | l :: ls, b, a => ⟨.unchanged, l, some b, some a, none⟩ :: unchangedLinesFrom ls (b + 1) (a + 1)

/-- The scan of `createDiffLines` over the aligner's runs: a removed run
immediately followed by an added run is consumed as one modification block
(the added run is not reprocessed); other runs are processed plainly; kept
runs are suppressed but still advance both counters when
`hideUnchangedRows` is set. -/
def processChangesFuel (config : DiffConfig) : Nat → List (Run String) → Nat → Nat → List DiffLine
  | _, [], _, _ => []
  | 0, _ :: _, _, _ => []
  | n + 1, ⟨.kept, items⟩ :: rs, b, a =>
    (if config.hideUnchangedRows then [] else unchangedLinesFrom items b a) ++
    processChangesFuel config n rs (b + items.length) (a + items.length)
  | n + 1, ⟨.added, items⟩ :: rs, _b, a =>
    addedLinesFrom items a ++ processChangesFuel config n rs _b (a + items.length)
  | n + 1, ⟨.removed, items⟩ :: ⟨.added, items2⟩ :: rs, b, a =>
    modBlockAux (padPairs items items2) b a ++
    processChangesFuel config n rs
      (b + cntB (padPairs items items2)) (a + cntA (padPairs items items2))
  | n + 1, ⟨.removed, items⟩ :: rs, b, a =>
    removedLinesFrom items b ++ processChangesFuel config n rs (b + items.length) a

/-- The scan over the aligner's runs, with fuel fixed to the run count (the
zero-fuel branch is unreachable). -/
def processChanges (config : DiffConfig) (runs : List (Run String)) (b a : Nat) :
    List DiffLine :=
  processChangesFuel config runs.length runs b a

/-- Source `createDiffLines`: align the two line arrays and scan the runs with
1-based counters. -/
def createDiffLines (beforeLines afterLines : List String) (config : DiffConfig) :
    List DiffLine :=
  processChanges config (diffArrays beforeLines afterLines) 1 1

/-- Source `computeTextDiff`: the whole text pipeline. -/
def computeTextDiff (beforeText afterText : String) (config : DiffConfig) : List DiffLine :=
  createDiffLines (parseTextToLines beforeText) (parseTextToLines afterText) config

/-! ## CSV parsing (`parseCsvToRows`, `parseCsvLine`, quote stripping) -/

/-- The character loop of `parseCsvLine`: a quote toggles the in-quotes
state (a doubled quote inside quotes is a literal quote), a comma outside
quotes separates fields, any other character is appended to the current
field; the final field is always pushed. -/
def parseCsvLineAux : Bool → List Char → List Char → List (List Char) → List (List Char)
  | _, [], current, result => result ++ [current]
  | true, '"' :: '"' :: cs, current, result => parseCsvLineAux true cs (current ++ ['"']) result
  | true, '"' :: cs, current, result => parseCsvLineAux false cs current result
  | false, '"' :: cs, current, result => parseCsvLineAux true cs current result
  | false, ',' :: cs, current, result => parseCsvLineAux false cs [] (result ++ [current])
  | inQuotes, c :: cs, current, result => parseCsvLineAux inQuotes cs (current ++ [c]) result

/-- Source `parseCsvLine`: strip one trailing carriage return, then run the
quote-aware field loop. -/
def parseCsvLine (line : String) : List String :=
  let l := if line.data.getLast? = some '\r' then line.data.dropLast else line.data
  (parseCsvLineAux false l [] []).map String.mk

/-- Source `parseCsvToRows`: split the text into physical lines on `"\n"`, then
parse each line into cells. -/
def parseCsvToRows (text : String) : List CSVRow :=
  (splitOnChar '\n' text.data).map (fun l => parseCsvLine (String.mk l))

/-- Source `stripCsvFormattingQuotes`: if the field starts and ends with a double
quote and the interior contains no comma, newline or quote, the quotes are
formatting-only and are removed. -/
def stripCsvFormattingQuotes (field : String) : String :=
  match field.data with
  | [] => field
  | c :: cs =>
    if c = '"' ∧ (c :: cs).getLast? = some '"' then
      let inner := cs.dropLast
      if ¬ inner.contains ',' ∧ ¬ inner.contains '\n' ∧ ¬ inner.contains '"' then
        String.mk inner
      else field
    else field

/-- Source `computeCellWordChanges`: word changes between two cell values (missing
cells have already been defaulted to `""`). -/
def computeCellWordChanges (beforeCell afterCell : String) : List WordChange :=
  diffWords beforeCell afterCell

/-! ## Cell and row diffing -/

/-- Source `createDiffCells`: for each cell index up to the longer row's length,
default missing cells to `""`, compare the raw cell values for `hasChange`,
compute word changes on the raw values when changed, and store the
formatting-quote-stripped values. -/
def createDiffCells (beforeRow afterRow : CSVRow) : List DiffCell :=
  (List.range (max beforeRow.length afterRow.length)).map (fun j =>
    let beforeCell := beforeRow.getD j ""
    let afterCell := afterRow.getD j ""
    let hasChange : Bool := beforeCell ≠ afterCell
    let wordChanges := if beforeCell ≠ afterCell then computeCellWordChanges beforeCell afterCell else []
    ⟨stripCsvFormattingQuotes beforeCell, stripCsvFormattingQuotes afterCell, hasChange, wordChanges⟩)

/-- Source `createDiffRowsWithOffset`: positional row alignment; rows where both
sides are zero-length are skipped, unchanged rows are filtered out when
`hideUnchangedRows` is set, and `rowNumber` is `index + 1 + rowOffset`. -/
def createDiffRowsWithOffset (beforeRows afterRows : List CSVRow) (config : DiffConfig)
    (rowOffset : Nat) : List DiffRow :=
  (List.range (max beforeRows.length afterRows.length)).filterMap (fun i =>
    let beforeRow := beforeRows.getD i []
    let afterRow := afterRows.getD i []
    if beforeRow.length = 0 ∧ afterRow.length = 0 then none
    else
      let cells := createDiffCells beforeRow afterRow
      let hasChanges := cells.any (fun c => c.hasChange)
      if ¬ config.hideUnchangedRows ∨ hasChanges = true then
        some ⟨i + 1 + rowOffset, cells, hasChanges⟩
      else none)

/-- Source `createDiffRows`: `createDiffRowsWithOffset` with the default offset 0. -/
def createDiffRows (beforeRows afterRows : List CSVRow) (config : DiffConfig) : List DiffRow :=
  createDiffRowsWithOffset beforeRows afterRows config 0

/-! ## Table-diff builder (`createCsvDiffTable`) and headers -/

/-- Insert into the membership-set model of a JS `Set<number>`. -/
def setAdd (s : List Nat) (x : Nat) : List Nat :=
  if s.contains x then s else s ++ [x]

/-- Source `detectChangedColumns`: the set of column indices where any row has a
changed cell. -/
def detectChangedColumns (diffRows : List DiffRow) : List Nat :=
  diffRows.foldl (fun acc row =>
    row.cells.enum.foldl (fun acc2 p =>
      if p.2.hasChange then setAdd acc2 p.1 else acc2) acc) []

/-- Source `extractCsvHeaders`: headers come from the after side's first row when
the after side is non-empty, otherwise from the before side's first row;
each label has formatting-only quotes stripped. -/
def extractCsvHeaders (beforeRows afterRows : List CSVRow) : List String :=
  match (if 0 < afterRows.length then afterRows.get? 0 else beforeRows.get? 0) with
  | some h => h.map stripCsvFormattingQuotes
  | none => []

/-- Source `generateCSVHeadersWithBeforeAfter`: expand each changed column's label
into trimmed "Before"/"After" labels. -/
def generateCSVHeadersWithBeforeAfter (actualHeaders : List String)
    (changedColumns : List Nat) : List String :=
  actualHeaders.enum.flatMap (fun p =>
    if changedColumns.contains p.1 then [p.2.trim ++ " Before", p.2.trim ++ " After"]
    else [p.2])

/-- Source `generateCsvHeaders`: synthesize "Column N" labels, expanding changed
columns in before/after mode. -/
def generateCsvHeaders (maxCols : Nat) (changedColumns : List Nat) (config : DiffConfig) :
    List String :=
  (List.range maxCols).flatMap (fun j =>
    if config.beforeAfterColumn ∧ changedColumns.contains j then
      ["Column " ++ toString (j + 1) ++ " Before", "Column " ++ toString (j + 1) ++ " After"]
    else ["Column " ++ toString (j + 1)])

/-- Maximum of a list of naturals (JS `Math.max(...lens)` over a non-empty
spread). -/
def listMax (l : List Nat) : Nat :=
  l.foldl Nat.max 0

/-- Source `createCsvDiffTable`: parse both texts, optionally consume a header row
(only slicing a side that has more than one row), diff the data rows
positionally with the header offset, and produce the headers per the
configuration. -/
def createCsvDiffTable (beforeText afterText : String) (config : DiffConfig) : DiffTable :=
  let beforeRows := parseCsvToRows beforeText
  let afterRows := parseCsvToRows afterText
  let headerMode := config.firstRowIsHeader ∧ 0 < beforeRows.length ∧ 0 < afterRows.length
  let dataBeforeRows :=
    if headerMode ∧ 1 < beforeRows.length then beforeRows.tail else beforeRows
  let dataAfterRows :=
    if headerMode ∧ 1 < afterRows.length then afterRows.tail else afterRows
  let actualHeaders := if headerMode then extractCsvHeaders beforeRows afterRows else []
  let diffRows := createDiffRowsWithOffset dataBeforeRows dataAfterRows config
    (if config.firstRowIsHeader then 1 else 0)
  let maxCols := listMax (dataBeforeRows.map List.length ++ dataAfterRows.map List.length)
  let changedColumns := if config.beforeAfterColumn then detectChangedColumns diffRows else []
  let headers :=
    if ¬ config.firstRowIsHeader then
      if config.beforeAfterColumn then generateCsvHeaders maxCols changedColumns config
      else generateCsvHeaders maxCols [] config
    else
      if config.beforeAfterColumn then generateCSVHeadersWithBeforeAfter actualHeaders changedColumns
      else actualHeaders
  ⟨headers, diffRows⟩

/-- Source `computeCsvDiff`: the whole CSV pipeline. -/
def computeCsvDiff (beforeText afterText : String) (config : DiffConfig) : DiffTable :=
  createCsvDiffTable beforeText afterText config

/-! ## CSV re-serialization (`exportDiffTableToCsv`) -/

/-- Double every quote character (JS `field.replaceAll('"', '""')`). -/
def doubleQuotes : List Char → List Char
  | [] => []
  | c :: cs => if c = '"' then '"' :: '"' :: doubleQuotes cs else c :: doubleQuotes cs

/-- Source `encodeCSVField`: always quote the field, doubling internal quotes. -/
def encodeCSVField (field : String) : String :=
  "\"" ++ String.mk (doubleQuotes field.data) ++ "\""

/-- Source `exportDiffTableToCsv`: one line for the headers (when non-empty) and
one per data row; changed columns in before/after mode emit both values,
all other cells emit the after value; lines joined by newline. -/
def exportDiffTableToCsv (diffTable : DiffTable) (config : DiffConfig) : String :=
  let headerLines :=
    if 0 < diffTable.headers.length then
      [strJoinSep "," (diffTable.headers.map encodeCSVField)]
    else []
  let changedColumns :=
    if config.beforeAfterColumn then detectChangedColumns diffTable.rows else []
  let rowLines := diffTable.rows.map (fun row =>
    strJoinSep "," (row.cells.enum.flatMap (fun p =>
      if config.beforeAfterColumn ∧ changedColumns.contains p.1 then
        [encodeCSVField p.2.before, encodeCSVField p.2.after]
      else [encodeCSVField p.2.after])))
  strJoinSep "\n" (headerLines ++ rowLines)

/-! ## Spec-side canonical serialization used by the round-trip claim -/

/-- The quoted CSV of the header-plus-data structure of a single text `a`,
built directly from the parse of `a` (not through the diff table): the
header line per the configuration, then one line per data row with every
field stripped of formatting-only quotes and individually quoted. -/
def canonicalQuotedCsv (a : String) (config : DiffConfig) : String :=
  let rows := parseCsvToRows a
  let dataRows :=
    if config.firstRowIsHeader then (if 1 < rows.length then rows.tail else rows) else rows
  let headers :=
    if config.firstRowIsHeader then (rows.headD []).map stripCsvFormattingQuotes
    else (List.range (listMax (dataRows.map List.length))).map
      (fun j => "Column " ++ toString (j + 1))
  strJoinSep "\n"
    (strJoinSep "," (headers.map encodeCSVField) ::
      dataRows.map (fun r =>
        strJoinSep "," (r.map (fun c => encodeCSVField (stripCsvFormattingQuotes c)))))

/-- The data rows of one side of a same-text diff: the parse of the text,
minus the first row when a header row is consumed and the side has more
than one row (the code's split, see `createCsvDiffTable`). -/
def dataOf (a : String) (config : DiffConfig) : List CSVRow :=
  if config.firstRowIsHeader then
    (if 1 < (parseCsvToRows a).length then (parseCsvToRows a).tail else parseCsvToRows a)
  else parseCsvToRows a

/-! ## Predicates and projections used by the statements -/

/-- The before-side reconstruction of an edit script (kept and deleted
elements, in order). -/
def beforeOf {α : Type} (es : List (Edit α)) : List α :=
  es.filterMap (fun e =>
    match e with
    | .keep a => some a
    | .del a => some a
    | .ins _ => none)

/-- The after-side reconstruction of an edit script (kept and inserted
elements, in order). -/
def afterOf {α : Type} (es : List (Edit α)) : List α :=
  es.filterMap (fun e =>
    match e with
    | .keep a => some a
    | .del _ => none
    | .ins a => some a)

/-- The elements of the runs whose tag satisfies `p`, flattened in order. -/
def runsValuesWhere {α : Type} (p : RunTag → Bool) (rs : List (Run α)) : List α :=
  rs.flatMap (fun r => if p r.tag then r.items else [])

/-- The items of the edit steps whose tag satisfies `p`, in order. -/
def editsValuesWhere {α : Type} (p : RunTag → Bool) (es : List (Edit α)) : List α :=
  es.foldr (fun e acc => if p (tagOf e) then itemOf e :: acc else acc) []

/-- Concatenation of the values of the fragments satisfying `p`. -/
def joinWhere (p : WordChange → Bool) (l : List WordChange) : String :=
  strJoin ((l.filter p).map WordChange.value)

/-- The line numbers selected by `proj` are at least the running bound and
strictly increase along the list (hidden or absent entries are skipped). -/
def monoTrack (proj : DiffLine → Option Nat) : Nat → List DiffLine → Prop
  | _, [] => True
  | b, l :: ls =>
    match proj l with
    | none => monoTrack proj b ls
    | some n => b ≤ n ∧ monoTrack proj (n + 1) ls

/-- The bound left after threading `monoTrack` through a list. -/
def nextTrack (proj : DiffLine → Option Nat) : Nat → List DiffLine → Nat
  | b, [] => b
  | b, l :: ls =>
    match proj l with
    | none => nextTrack proj b ls
    | some n => nextTrack proj (n + 1) ls

/-- Field-shape invariant of an emitted `DiffLine`: unchanged lines carry
both line numbers and no word changes, removed lines carry only the before
number, added lines carry only the after number. -/
def shapeOK (l : DiffLine) : Prop :=
  (l.type = DiffLineType.unchanged →
    l.beforeLineNumber.isSome = true ∧ l.afterLineNumber.isSome = true ∧ l.wordChanges = none) ∧
  (l.type = DiffLineType.removed →
    l.beforeLineNumber.isSome = true ∧ l.afterLineNumber = none) ∧
  (l.type = DiffLineType.added →
    l.afterLineNumber.isSome = true ∧ l.beforeLineNumber = none)

/-! ## String lemmas -/

lemma strEq {s t : String} (h : s.data = t.data) : s = t := by
  cases s; cases t; exact congrArg String.mk h

lemma mk_append (l1 l2 : List Char) : String.mk l1 ++ String.mk l2 = String.mk (l1 ++ l2) := rfl

lemma strJoin_data : ∀ ts : List String, (strJoin ts).data = (ts.map String.data).flatten
  | [] => rfl
  | s :: ss => by
    simp only [strJoin, List.map_cons, List.flatten_cons, String.data_append, strJoin_data ss]

lemma strJoin_append (l1 l2 : List String) :
    strJoin (l1 ++ l2) = strJoin l1 ++ strJoin l2 := by
  apply strEq
  simp [strJoin_data, String.data_append]

lemma strJoin_flatten (LL : List (List String)) :
    strJoin (LL.map strJoin) = strJoin LL.flatten := by
  induction LL with
  | nil => rfl
  | cons h t ih => simp only [List.map_cons, List.flatten_cons, strJoin, strJoin_append, ih]

lemma strJoin_singleton (s : String) : strJoin [s] = s := by
  apply strEq
  simp [strJoin_data]

/-! ## Tokenizer lemmas -/

lemma tokenizeAux_flatten : ∀ l : List Char, (tokenizeAux l).flatten = l
  | [] => rfl
  | c :: cs => by
    have ih := tokenizeAux_flatten cs
    simp only [tokenizeAux]
    cases h : tokenizeAux cs with
    | nil => simp_all
    | cons t ts =>
      cases t with
      | nil => simp_all
      | cons d ds =>
        by_cases hk : charKind c = charKind d <;> simp_all

lemma strJoin_tokenize (s : String) : strJoin (tokenize s) = s := by
  apply strEq
  rw [strJoin_data]
  simp only [tokenize, List.map_map]
  have hid : (String.data ∘ String.mk) = id := rfl
  rw [hid, List.map_id]
  exact tokenizeAux_flatten s.data

/-! ## Edit-script reconstruction laws -/

lemma beforeOf_nil {α : Type} : beforeOf ([] : List (Edit α)) = [] := rfl

lemma beforeOf_keep {α : Type} (a : α) (es : List (Edit α)) :
    beforeOf (.keep a :: es) = a :: beforeOf es := rfl

lemma beforeOf_del {α : Type} (a : α) (es : List (Edit α)) :
    beforeOf (.del a :: es) = a :: beforeOf es := rfl

lemma beforeOf_ins {α : Type} (a : α) (es : List (Edit α)) :
    beforeOf (.ins a :: es) = beforeOf es := rfl

lemma afterOf_nil {α : Type} : afterOf ([] : List (Edit α)) = [] := rfl

lemma afterOf_keep {α : Type} (a : α) (es : List (Edit α)) :
    afterOf (.keep a :: es) = a :: afterOf es := rfl

lemma afterOf_del {α : Type} (a : α) (es : List (Edit α)) :
    afterOf (.del a :: es) = afterOf es := rfl

lemma afterOf_ins {α : Type} (a : α) (es : List (Edit α)) :
    afterOf (.ins a :: es) = a :: afterOf es := rfl

lemma beforeOf_map_ins {α : Type} (ys : List α) : beforeOf (ys.map .ins) = [] := by
  induction ys with
  | nil => rfl
  | cons y ys ih => simpa [beforeOf_ins] using ih

lemma afterOf_map_ins {α : Type} (ys : List α) : afterOf (ys.map .ins) = ys := by
  induction ys with
  | nil => rfl
  | cons y ys ih => simpa [afterOf_ins] using ih

lemma beforeOf_map_del {α : Type} (xs : List α) : beforeOf (xs.map .del) = xs := by
  induction xs with
  | nil => rfl
  | cons x xs ih => simpa [beforeOf_del] using ih

lemma afterOf_map_del {α : Type} (xs : List α) : afterOf (xs.map .del) = [] := by
  induction xs with
  | nil => rfl
  | cons x xs ih => simpa [afterOf_del] using ih

lemma diffEditsFuel_reconstruct {α : Type} [DecidableEq α] :
    ∀ (n : Nat) (xs ys : List α), xs.length + ys.length ≤ n →
      beforeOf (diffEditsFuel n xs ys) = xs ∧ afterOf (diffEditsFuel n xs ys) = ys := by
  intro n
  induction n with
  | zero =>
    intro xs ys h
    cases xs with
    | nil => simp [diffEditsFuel, beforeOf_map_ins, afterOf_map_ins]
    | cons x xs =>
      cases ys with
      | nil => simp [diffEditsFuel, beforeOf_del, beforeOf_map_del, afterOf_del, afterOf_map_del]
      | cons y ys => simp at h
  | succ n ih =>
    intro xs ys h
    cases xs with
    | nil => simp [diffEditsFuel, beforeOf_map_ins, afterOf_map_ins]
    | cons x xs =>
      cases ys with
      | nil => simp [diffEditsFuel, beforeOf_del, beforeOf_map_del, afterOf_del, afterOf_map_del]
      | cons y ys =>
        simp only [diffEditsFuel]
        by_cases hxy : x = y
        · subst hxy
          have hr := ih xs ys (by simp at h; omega)
          simp [beforeOf_keep, afterOf_keep, hr.1, hr.2]
        · have hd := ih xs (y :: ys) (by simp at h ⊢; omega)
          have hi := ih (x :: xs) ys (by simp at h ⊢; omega)
          simp only [if_neg hxy]
          by_cases hc :
              editCost (.del x :: diffEditsFuel n xs (y :: ys)) ≤
                editCost (.ins y :: diffEditsFuel n (x :: xs) ys)
          · simp [hc, beforeOf_del, afterOf_del, hd.1, hd.2]
          · simp [hc, beforeOf_ins, afterOf_ins, hi.1, hi.2]

lemma diffEdits_reconstruct {α : Type} [DecidableEq α] (xs ys : List α) :
    beforeOf (diffEdits xs ys) = xs ∧ afterOf (diffEdits xs ys) = ys :=
  diffEditsFuel_reconstruct (xs.length + ys.length) xs ys le_rfl

/-! ## Run-merging preserves filtered contents -/

lemma runsValuesWhere_nil {α : Type} (p : RunTag → Bool) :
    runsValuesWhere p ([] : List (Run α)) = [] := rfl

lemma runsValuesWhere_cons {α : Type} (p : RunTag → Bool) (r : Run α) (rs : List (Run α)) :
    runsValuesWhere p (r :: rs) =
      (if p r.tag then r.items else []) ++ runsValuesWhere p rs := by
  simp [runsValuesWhere]

lemma editsValuesWhere_nil {α : Type} (p : RunTag → Bool) :
    editsValuesWhere p ([] : List (Edit α)) = [] := rfl

lemma editsValuesWhere_cons {α : Type} (p : RunTag → Bool) (e : Edit α) (es : List (Edit α)) :
    editsValuesWhere p (e :: es) =
      (if p (tagOf e) then [itemOf e] else []) ++ editsValuesWhere p es := by
  by_cases hp : p (tagOf e) <;> simp [editsValuesWhere, hp]

lemma mergeEdits_valuesWhere {α : Type} (p : RunTag → Bool) :
    ∀ es : List (Edit α), runsValuesWhere p (mergeEdits es) = editsValuesWhere p es := by
  intro es
  induction es with
  | nil => rfl
  | cons e es ih =>
    rw [editsValuesWhere_cons, ← ih]
    simp only [mergeEdits]
    cases h : mergeEdits es with
    | nil =>
      simp [runsValuesWhere_cons, runsValuesWhere_nil]
    | cons r rs =>
      by_cases ht : tagOf e = r.tag
      · simp only [if_pos ht]
        show runsValuesWhere p (⟨r.tag, itemOf e :: r.items⟩ :: rs) = _
        rw [runsValuesWhere_cons, runsValuesWhere_cons, ht]
        by_cases hp : p r.tag <;> simp [hp]
      · simp only [if_neg ht]
        rw [runsValuesWhere_cons, runsValuesWhere_cons]

lemma editsValuesWhere_notRemoved {α : Type} :
    ∀ es : List (Edit α),
      editsValuesWhere (fun t => !(t == RunTag.removed)) es = afterOf es := by
  intro es
  induction es with
  | nil => rfl
  | cons e es ih =>
    cases e <;>
      simp only [editsValuesWhere, List.foldr_cons, tagOf, itemOf] at ih ⊢ <;>
      simp_all [afterOf_keep, afterOf_del, afterOf_ins, editsValuesWhere]

lemma editsValuesWhere_notAdded {α : Type} :
    ∀ es : List (Edit α),
      editsValuesWhere (fun t => !(t == RunTag.added)) es = beforeOf es := by
  intro es
  induction es with
  | nil => rfl
  | cons e es ih =>
    cases e <;>
      simp only [editsValuesWhere, List.foldr_cons, tagOf, itemOf] at ih ⊢ <;>
      simp_all [beforeOf_keep, beforeOf_del, beforeOf_ins, editsValuesWhere]

lemma joinWhere_nil (p : WordChange → Bool) : joinWhere p [] = "" := rfl

lemma joinWhere_cons (p : WordChange → Bool) (f : WordChange) (l : List WordChange) :
    joinWhere p (f :: l) = (if p f then f.value else "") ++ joinWhere p l := by
  by_cases hp : p f
  · simp [joinWhere, hp, List.filter_cons, strJoin]
  · simp only [joinWhere, List.filter_cons, hp]
    simp [hp]

lemma joinWhere_runs (p : WordChange → Bool) (q : RunTag → Bool)
    (hpq : ∀ r : Run String,
      p ⟨strJoin r.items, r.tag = RunTag.added, r.tag = RunTag.removed⟩ = q r.tag) :
    ∀ rs : List (Run String),
      joinWhere p (rs.map
          (fun r => ⟨strJoin r.items, r.tag = RunTag.added, r.tag = RunTag.removed⟩)) =
        strJoin (runsValuesWhere q rs) := by
  intro rs
  induction rs with
  | nil => rfl
  | cons r rs ih =>
    rw [List.map_cons, joinWhere_cons, runsValuesWhere_cons, strJoin_append, ih, hpq r]
    by_cases hq : q r.tag
    · simp [hq]
    · simp [hq, strJoin]

/-- C2: for every pair of strings, concatenating the fragment values where
`removed` is false yields the after string, and concatenating the values
where `added` is false yields the before string. -/
theorem computeWordChanges_reconstructs (before after : String) :
    joinWhere (fun f => !f.removed) (computeWordChanges before after) = after ∧
    joinWhere (fun f => !f.added) (computeWordChanges before after) = before := by
  unfold computeWordChanges diffWords
  by_cases h : before = after
  · subst h
    rw [if_pos rfl]
    constructor <;>
      · rw [joinWhere_cons, joinWhere_nil]
        exact strEq (by simp [String.data_append])
  · rw [if_neg h]
    constructor
    · rw [joinWhere_runs (fun f => !f.removed) (fun t => !(t == RunTag.removed))
        (fun r => rfl) (mergeEdits (diffEdits (tokenize before) (tokenize after)))]
      rw [mergeEdits_valuesWhere, editsValuesWhere_notRemoved,
        (diffEdits_reconstruct (tokenize before) (tokenize after)).2, strJoin_tokenize]
    · rw [joinWhere_runs (fun f => !f.added) (fun t => !(t == RunTag.added))
        (fun r => rfl) (mergeEdits (diffEdits (tokenize before) (tokenize after)))]
      rw [mergeEdits_valuesWhere, editsValuesWhere_notAdded,
        (diffEdits_reconstruct (tokenize before) (tokenize after)).1, strJoin_tokenize]

/-- C8: for every string `s`, including the empty string,
`computeWordChanges s s` is exactly one fragment that is neither added nor
removed and whose value is `s`. -/
theorem computeWordChanges_self (s : String) :
    computeWordChanges s s = [⟨s, false, false⟩] := by
  simp [computeWordChanges, diffWords]

/-! ## Parser shape lemmas -/

lemma splitOnChar_ne_nil (sep : Char) : ∀ l : List Char, splitOnChar sep l ≠ [] := by
  intro l
  cases l with
  | nil => simp [splitOnChar]
  | cons c cs =>
    simp only [splitOnChar]
    cases h : splitOnChar sep cs with
    | nil => simp
    | cons h t =>
      by_cases hc : c = sep <;> simp [hc]

lemma parseCsvToRows_length_pos (t : String) : 0 < (parseCsvToRows t).length := by
  have h := splitOnChar_ne_nil '\n' t.data
  simp only [parseCsvToRows, List.length_map]
  exact List.length_pos.mpr h

/-! ## C1: cell diffing -/

/-- C1 (amended): `createDiffCells` pads missing cells with the empty
string up to the longer row's length; `hasChange` is the strict inequality
of the raw (padded) cell values, not of the stripped values, and
`wordChanges` is computed on the raw values when they differ and is empty
otherwise; only the stored `before`/`after` fields are
formatting-quote-stripped. -/
theorem createDiffCells_characterization (beforeRow afterRow : CSVRow) (j : Nat)
    (h : j < max beforeRow.length afterRow.length) :
    (createDiffCells beforeRow afterRow).length = max beforeRow.length afterRow.length ∧
    (createDiffCells beforeRow afterRow)[j]? =
      some ⟨stripCsvFormattingQuotes (beforeRow.getD j ""),
            stripCsvFormattingQuotes (afterRow.getD j ""),
            decide (beforeRow.getD j "" ≠ afterRow.getD j ""),
            if beforeRow.getD j "" ≠ afterRow.getD j ""
            then computeCellWordChanges (beforeRow.getD j "") (afterRow.getD j "") else []⟩ := by
  constructor
  · simp [createDiffCells]
  · simp [createDiffCells, List.getElem?_map, List.getElem?_range, h]

/-- Witness for C1's amended characterization at a concrete input with a
missing after-side cell. -/
theorem createDiffCells_characterization_witness :
    (createDiffCells ["x", "b"] ["x"]).length = 2 ∧
    (createDiffCells ["x", "b"] ["x"])[1]? = some ⟨"b", "", true, [⟨"b", false, true⟩]⟩ := by
  have h := createDiffCells_characterization ["x", "b"] ["x"] 1 (by decide)
  exact ⟨h.1.trans (by decide), h.2.trans (by decide)⟩

/-- C1 counterexample: for `beforeRow = ["\"a\""]` and `afterRow = ["a"]`
the stripped values coincide, yet the code sets `hasChange` (and a
non-empty `wordChanges`), because it compares the raw cell values; the
claim's "hasChange iff the stripped values differ" is false. -/
theorem createDiffCells_counterexample :
    ((createDiffCells ["\"a\""] ["a"]).getD 0 ⟨"", "", false, []⟩).hasChange = true ∧
    ((createDiffCells ["\"a\""] ["a"]).getD 0 ⟨"", "", false, []⟩).before =
      ((createDiffCells ["\"a\""] ["a"]).getD 0 ⟨"", "", false, []⟩).after ∧
    ((createDiffCells ["\"a\""] ["a"]).getD 0 ⟨"", "", false, []⟩).wordChanges ≠ [] := by
  decide

/-! ## C3: header-row consumption -/

/-- C3 (amended): with `firstRowIsHeader` set, each side's data set is its
rows minus the first only when that side has more than one row; a side with
exactly one row keeps that row in its data set (the slice is skipped), so
its single row is still diffed as data.  Concretely, for before `"h"` and
after `"h\nx"` the single before row `["h"]` is compared against `["x"]`. -/
theorem createCsvDiffTable_dataRows (a b : String) (cfg : DiffConfig)
    (h : cfg.firstRowIsHeader = true) :
    (createCsvDiffTable a b cfg).rows =
      createDiffRowsWithOffset
        (if 1 < (parseCsvToRows a).length then (parseCsvToRows a).tail else parseCsvToRows a)
        (if 1 < (parseCsvToRows b).length then (parseCsvToRows b).tail else parseCsvToRows b)
        cfg 1 ∧
    (createCsvDiffTable "h" "h\nx" ⟨DiffMode.csv, false, false, true⟩).rows =
      [⟨2, [⟨"h", "x", true, [⟨"h", false, true⟩, ⟨"x", true, false⟩]⟩], true⟩] := by
  constructor
  · have ha := parseCsvToRows_length_pos a
    have hb := parseCsvToRows_length_pos b
    simp [createCsvDiffTable, h, ha, hb]
  · decide

/-- Witness for C3's amended statement at a concrete config. -/
theorem createCsvDiffTable_dataRows_witness :
    (createCsvDiffTable "h" "h\nx" ⟨DiffMode.csv, false, false, true⟩).rows =
      createDiffRowsWithOffset
        (if 1 < (parseCsvToRows "h").length then (parseCsvToRows "h").tail
          else parseCsvToRows "h")
        (if 1 < (parseCsvToRows "h\nx").length then (parseCsvToRows "h\nx").tail
          else parseCsvToRows "h\nx")
        ⟨DiffMode.csv, false, false, true⟩ 1 :=
  (createCsvDiffTable_dataRows "h" "h\nx" ⟨DiffMode.csv, false, false, true⟩ rfl).1

/-- C3 counterexample: the before text `"h"` parses to exactly one row, so
per the claim its data set would be empty and the first diff row's before
cell would be the padded `""`; the code instead keeps the single row as
data and diffs `"h"` against `"x"`. -/
theorem createCsvDiffTable_single_row_counterexample :
    parseCsvToRows "h" = [["h"]] ∧
    (createCsvDiffTable "h" "h\nx" ⟨DiffMode.csv, false, false, true⟩).rows.length = 1 ∧
    (((createCsvDiffTable "h" "h\nx" ⟨DiffMode.csv, false, false, true⟩).rows.getD 0
        ⟨0, [], false⟩).cells.getD 0 ⟨"", "", false, []⟩).before = "h" := by
  decide

/-! ## C4: quoted-field parsing -/

lemma parseAux_true_cons (c : Char) (hc : c ≠ '"') (cs cur res) :
    parseCsvLineAux true (c :: cs) cur res = parseCsvLineAux true cs (cur ++ [c]) res := by
  simp [parseCsvLineAux, hc]

lemma parseCsvLineAux_append_inQuotes :
    ∀ s : List Char, (∀ c ∈ s, c ≠ '"') → ∀ rest cur res,
      parseCsvLineAux true (s ++ rest) cur res = parseCsvLineAux true rest (cur ++ s) res := by
  intro s
  induction s with
  | nil =>
    intro _ rest cur res
    simp
  | cons c cs ih =>
    intro hs rest cur res
    have hc : c ≠ '"' := hs c (List.mem_cons_self c cs)
    have hcs : ∀ x ∈ cs, x ≠ '"' := fun x hx => hs x (List.mem_cons_of_mem c hx)
    rw [List.cons_append, parseAux_true_cons c hc, ih hcs rest (cur ++ [c]) res]
    simp

lemma string_quote_wrap_data (s : String) :
    ("\"" ++ s ++ "\"").data = '"' :: (s.data ++ ['"']) := by
  simp [String.data_append]

/-- C4 (amended): inside one physical line, a field wrapped in double
quotes may contain the delimiter and is parsed as a single cell (a
delimiter or quote inside a quoted field does not terminate the field), and
a doubled quote inside a quoted field is a literal quote character; but a
quoted field cannot span newlines: `parseCsvToRows` splits the text on
`"\n"` before any quote processing, so a newline always starts a new row. -/
theorem parseCsvLine_quoted (s t : String)
    (hs : ∀ c ∈ s.data, c ≠ '"') (ht : ∀ c ∈ t.data, c ≠ '"') :
    parseCsvLine ("\"" ++ s ++ "\"") = [s] ∧
    parseCsvLine ("\"" ++ s ++ "\"\"" ++ t ++ "\"") = [s ++ "\"" ++ t] := by
  constructor
  · have hdata : ("\"" ++ s ++ "\"").data = '"' :: (s.data ++ ['"']) :=
      string_quote_wrap_data s
    have hlast : ('"' :: (s.data ++ ['"'])).getLast? = some '"' := by
      rw [show ('"' :: (s.data ++ ['"'])) = (('"' :: s.data) ++ ['"']) by simp]
      exact List.getLast?_concat _
    simp only [parseCsvLine, hdata, hlast]
    rw [if_neg (by decide)]
    rw [show parseCsvLineAux false ('"' :: (s.data ++ ['"'])) [] [] =
        parseCsvLineAux true (s.data ++ ['"']) [] [] from rfl]
    rw [parseCsvLineAux_append_inQuotes s.data hs ['"'] [] []]
    rfl
  · have hdata : ("\"" ++ s ++ "\"\"" ++ t ++ "\"").data =
        '"' :: (s.data ++ ('"' :: '"' :: (t.data ++ ['"']))) := by
      simp [String.data_append]
    have hlast : ('"' :: (s.data ++ ('"' :: '"' :: (t.data ++ ['"'])))).getLast? = some '"' := by
      rw [show ('"' :: (s.data ++ ('"' :: '"' :: (t.data ++ ['"'])))) =
          (('"' :: s.data ++ ['"', '"'] ++ t.data) ++ ['"']) by simp]
      exact List.getLast?_concat _
    simp only [parseCsvLine, hdata, hlast]
    rw [if_neg (by decide)]
    rw [show parseCsvLineAux false ('"' :: (s.data ++ ('"' :: '"' :: (t.data ++ ['"'])))) [] [] =
        parseCsvLineAux true (s.data ++ ('"' :: '"' :: (t.data ++ ['"']))) [] [] from rfl]
    rw [parseCsvLineAux_append_inQuotes s.data hs ('"' :: '"' :: (t.data ++ ['"'])) [] []]
    rw [show parseCsvLineAux true ('"' :: '"' :: (t.data ++ ['"'])) ([] ++ s.data) [] =
        parseCsvLineAux true (t.data ++ ['"']) (([] ++ s.data) ++ ['"']) [] from rfl]
    rw [parseCsvLineAux_append_inQuotes t.data ht ['"'] (([] ++ s.data) ++ ['"']) []]
    show [String.mk ((([] ++ s.data) ++ ['"']) ++ t.data)] = [s ++ "\"" ++ t]
    apply congrArg (fun l => [String.mk l])
    simp

/-- Witness for C4's amended statement: a quoted field containing commas
and a quoted field with a doubled quote. -/
theorem parseCsvLine_quoted_witness :
    parseCsvLine "\"a,b\"" = ["a,b"] ∧ parseCsvLine "\"a,b\"\"c\"" = ["a,b\"c"] := by
  have h := parseCsvLine_quoted "a,b" "c" (by decide) (by decide)
  refine ⟨?_, ?_⟩
  · have e1 : ("\"" ++ "a,b" ++ "\"" : String) = "\"a,b\"" := by decide
    rw [← e1]
    exact h.1
  · have e2 : ("\"" ++ "a,b" ++ "\"\"" ++ "c" ++ "\"" : String) = "\"a,b\"\"c\"" := by decide
    have e3 : ("a,b" ++ "\"" ++ "c" : String) = "a,b\"c" := by decide
    rw [← e2, ← e3]
    exact h.2

/-- C4 counterexample: a double-quoted field containing a newline is not
parsed as a single cell; the text is split on the newline first, yielding
two rows. -/
theorem parseCsvToRows_quoted_newline_counterexample :
    parseCsvToRows "\"a\nb\",c" = [["a"], ["b,c"]] := by
  decide

/-! ## C5: line-number tracks and field shapes -/

lemma monoTrack_weaken (proj : DiffLine → Option Nat) :
    ∀ (ls : List DiffLine) (b' b : Nat), b' ≤ b →
      monoTrack proj b ls → monoTrack proj b' ls := by
  intro ls
  induction ls with
  | nil => intro b' b _ _; trivial
  | cons l ls ih =>
    intro b' b hle h
    cases hp : proj l with
    | none =>
      simp only [monoTrack, hp] at h ⊢
      exact ih b' b hle h
    | some n =>
      simp only [monoTrack, hp] at h ⊢
      exact ⟨le_trans hle h.1, h.2⟩

lemma monoTrack_append (proj : DiffLine → Option Nat) :
    ∀ (xs : List DiffLine) (b : Nat) (ys : List DiffLine),
      monoTrack proj b xs → monoTrack proj (nextTrack proj b xs) ys →
      monoTrack proj b (xs ++ ys) := by
  intro xs
  induction xs with
  | nil => intro b ys _ h2; exact h2
  | cons l xs ih =>
    intro b ys h1 h2
    cases hp : proj l with
    | none =>
      simp only [monoTrack, nextTrack, hp, List.cons_append] at h1 h2 ⊢
      exact ih b ys h1 h2
    | some n =>
      simp only [monoTrack, nextTrack, hp, List.cons_append] at h1 h2 ⊢
      exact ⟨h1.1, ih (n + 1) ys h1.2 h2⟩

lemma removedLinesFrom_monoB : ∀ (ls : List String) (b : Nat),
    monoTrack DiffLine.beforeLineNumber b (removedLinesFrom ls b) ∧
    nextTrack DiffLine.beforeLineNumber b (removedLinesFrom ls b) = b + ls.length := by
  intro ls
  induction ls with
  | nil => intro b; simp [removedLinesFrom, monoTrack, nextTrack]
  | cons l ls ih =>
    intro b
    simp only [removedLinesFrom, monoTrack, nextTrack, List.length_cons]
    exact ⟨⟨le_rfl, (ih (b + 1)).1⟩, by rw [(ih (b + 1)).2]; omega⟩

lemma removedLinesFrom_monoA : ∀ (ls : List String) (b a : Nat),
    monoTrack DiffLine.afterLineNumber a (removedLinesFrom ls b) ∧
    nextTrack DiffLine.afterLineNumber a (removedLinesFrom ls b) = a := by
  intro ls
  induction ls with
  | nil => intro b a; simp [removedLinesFrom, monoTrack, nextTrack]
  | cons l ls ih =>
    intro b a
    simp only [removedLinesFrom, monoTrack, nextTrack]
    exact ih (b + 1) a

lemma addedLinesFrom_monoA : ∀ (ls : List String) (a : Nat),
    monoTrack DiffLine.afterLineNumber a (addedLinesFrom ls a) ∧
    nextTrack DiffLine.afterLineNumber a (addedLinesFrom ls a) = a + ls.length := by
  intro ls
  induction ls with
  | nil => intro a; simp [addedLinesFrom, monoTrack, nextTrack]
  | cons l ls ih =>
    intro a
    simp only [addedLinesFrom, monoTrack, nextTrack, List.length_cons]
    exact ⟨⟨le_rfl, (ih (a + 1)).1⟩, by rw [(ih (a + 1)).2]; omega⟩

lemma addedLinesFrom_monoB : ∀ (ls : List String) (a b : Nat),
    monoTrack DiffLine.beforeLineNumber b (addedLinesFrom ls a) ∧
    nextTrack DiffLine.beforeLineNumber b (addedLinesFrom ls a) = b := by
  intro ls
  induction ls with
  | nil => intro a b; simp [addedLinesFrom, monoTrack, nextTrack]
  | cons l ls ih =>
    intro a b
    simp only [addedLinesFrom, monoTrack, nextTrack]
    exact ih (a + 1) b

lemma unchangedLinesFrom_monoB : ∀ (ls : List String) (b a : Nat),
    monoTrack DiffLine.beforeLineNumber b (unchangedLinesFrom ls b a) ∧
    nextTrack DiffLine.beforeLineNumber b (unchangedLinesFrom ls b a) = b + ls.length := by
  intro ls
  induction ls with
  | nil => intro b a; simp [unchangedLinesFrom, monoTrack, nextTrack]
  | cons l ls ih =>
    intro b a
    simp only [unchangedLinesFrom, monoTrack, nextTrack, List.length_cons]
    exact ⟨⟨le_rfl, (ih (b + 1) (a + 1)).1⟩, by rw [(ih (b + 1) (a + 1)).2]; omega⟩

lemma unchangedLinesFrom_monoA : ∀ (ls : List String) (b a : Nat),
    monoTrack DiffLine.afterLineNumber a (unchangedLinesFrom ls b a) ∧
    nextTrack DiffLine.afterLineNumber a (unchangedLinesFrom ls b a) = a + ls.length := by
  intro ls
  induction ls with
  | nil => intro b a; simp [unchangedLinesFrom, monoTrack, nextTrack]
  | cons l ls ih =>
    intro b a
    simp only [unchangedLinesFrom, monoTrack, nextTrack, List.length_cons]
    exact ⟨⟨le_rfl, (ih (b + 1) (a + 1)).1⟩, by rw [(ih (b + 1) (a + 1)).2]; omega⟩

lemma cntB_nil : cntB [] = 0 := rfl

lemma cntA_nil : cntA [] = 0 := rfl

lemma cntB_cons (bl al : String) (ps : List (String × String)) :
    cntB ((bl, al) :: ps) = (if bl ≠ "" then 1 else 0) + cntB ps := by
  by_cases h : bl = "" <;> simp [cntB, List.filter_cons, h, Nat.add_comm]

lemma cntA_cons (bl al : String) (ps : List (String × String)) :
    cntA ((bl, al) :: ps) = (if al ≠ "" then 1 else 0) + cntA ps := by
  by_cases h : al = "" <;> simp [cntA, List.filter_cons, h, Nat.add_comm]

lemma modBlockAux_monoB : ∀ (ps : List (String × String)) (b a : Nat),
    monoTrack DiffLine.beforeLineNumber b (modBlockAux ps b a) ∧
    nextTrack DiffLine.beforeLineNumber b (modBlockAux ps b a) = b + cntB ps := by
  intro ps
  induction ps with
  | nil => intro b a; simp [modBlockAux, monoTrack, nextTrack, cntB_nil]
  | cons p ps ih =>
    intro b a
    obtain ⟨bl, al⟩ := p
    rw [cntB_cons]
    by_cases hb : bl = "" <;> by_cases ha : al = "" <;>
      · simp only [modBlockAux, hb, ha, if_pos, if_neg, ne_eq, not_true_eq_false,
          not_false_eq_true, ite_true, ite_false, List.nil_append, List.cons_append,
          monoTrack, nextTrack, List.append_nil]
        try simp only [monoTrack, nextTrack]
        first
        | exact ⟨(ih b a).1, by rw [(ih b a).2]; omega⟩
        | exact ⟨(ih b (a + 1)).1, by rw [(ih b (a + 1)).2]; omega⟩
        | exact ⟨⟨le_rfl, (ih (b + 1) a).1⟩, by rw [(ih (b + 1) a).2]; omega⟩
        | exact ⟨⟨le_rfl, (ih (b + 1) (a + 1)).1⟩, by rw [(ih (b + 1) (a + 1)).2]; omega⟩

lemma modBlockAux_monoA : ∀ (ps : List (String × String)) (b a : Nat),
    monoTrack DiffLine.afterLineNumber a (modBlockAux ps b a) ∧
    nextTrack DiffLine.afterLineNumber a (modBlockAux ps b a) = a + cntA ps := by
  intro ps
  induction ps with
  | nil => intro b a; simp [modBlockAux, monoTrack, nextTrack, cntA_nil]
  | cons p ps ih =>
    intro b a
    obtain ⟨bl, al⟩ := p
    rw [cntA_cons]
    by_cases hb : bl = "" <;> by_cases ha : al = "" <;>
      · simp only [modBlockAux, hb, ha, if_pos, if_neg, ne_eq, not_true_eq_false,
          not_false_eq_true, ite_true, ite_false, List.nil_append, List.cons_append,
          monoTrack, nextTrack, List.append_nil]
        try simp only [monoTrack, nextTrack]
        first
        | exact ⟨(ih b a).1, by rw [(ih b a).2]; omega⟩
        | exact ⟨(ih (b + 1) a).1, by rw [(ih (b + 1) a).2]; omega⟩
        | exact ⟨⟨le_rfl, (ih b (a + 1)).1⟩, by rw [(ih b (a + 1)).2]; omega⟩
        | exact ⟨⟨le_rfl, (ih (b + 1) (a + 1)).1⟩, by rw [(ih (b + 1) (a + 1)).2]; omega⟩

lemma processChangesFuel_mono (config : DiffConfig) :
    ∀ (n : Nat) (runs : List (Run String)), runs.length ≤ n → ∀ b a,
      monoTrack DiffLine.beforeLineNumber b (processChangesFuel config n runs b a) ∧
      monoTrack DiffLine.afterLineNumber a (processChangesFuel config n runs b a) := by
  intro n
  induction n with
  | zero =>
    intro runs h b a
    have hr : runs = [] := List.eq_nil_of_length_eq_zero (Nat.le_zero.mp h)
    subst hr
    simp [processChangesFuel, monoTrack]
  | succ n ih =>
    intro runs h b a
    cases runs with
    | nil => simp [processChangesFuel, monoTrack]
    | cons r rs =>
      obtain ⟨tag, items⟩ := r
      have hrs : rs.length ≤ n := by simp at h; omega
      cases tag with
      | kept =>
        by_cases hh : config.hideUnchangedRows
        · simp only [processChangesFuel, hh, if_true, List.nil_append]
          exact ⟨monoTrack_weaken _ _ b (b + items.length) (Nat.le_add_right b _)
              (ih rs hrs (b + items.length) (a + items.length)).1,
            monoTrack_weaken _ _ a (a + items.length) (Nat.le_add_right a _)
              (ih rs hrs (b + items.length) (a + items.length)).2⟩
        · simp only [processChangesFuel, hh, if_false, Bool.false_eq_true]
          constructor
          · refine monoTrack_append _ _ b _ (unchangedLinesFrom_monoB items b a).1 ?_
            rw [(unchangedLinesFrom_monoB items b a).2]
            exact (ih rs hrs (b + items.length) (a + items.length)).1
          · refine monoTrack_append _ _ a _ (unchangedLinesFrom_monoA items b a).1 ?_
            rw [(unchangedLinesFrom_monoA items b a).2]
            exact (ih rs hrs (b + items.length) (a + items.length)).2
      | added =>
        simp only [processChangesFuel]
        constructor
        · refine monoTrack_append _ _ b _ (addedLinesFrom_monoB items a b).1 ?_
          rw [(addedLinesFrom_monoB items a b).2]
          exact (ih rs hrs b (a + items.length)).1
        · refine monoTrack_append _ _ a _ (addedLinesFrom_monoA items a).1 ?_
          rw [(addedLinesFrom_monoA items a).2]
          exact (ih rs hrs b (a + items.length)).2
      | removed =>
        cases rs with
        | nil =>
          simp only [processChangesFuel]
          constructor
          · refine monoTrack_append _ _ b _ (removedLinesFrom_monoB items b).1 ?_
            rw [(removedLinesFrom_monoB items b).2]
            trivial
          · refine monoTrack_append _ _ a _ (removedLinesFrom_monoA items b a).1 ?_
            rw [(removedLinesFrom_monoA items b a).2]
            trivial
        | cons r2 rs2 =>
          obtain ⟨tag2, items2⟩ := r2
          have hrs2 : rs2.length ≤ n := by simp at h; omega
          have hrs2' : (Run.mk tag2 items2 :: rs2).length ≤ n := by simp at h ⊢; omega
          cases tag2 with
          | added =>
            simp only [processChangesFuel]
            constructor
            · refine monoTrack_append _ _ b _ (modBlockAux_monoB (padPairs items items2) b a).1 ?_
              rw [(modBlockAux_monoB (padPairs items items2) b a).2]
              exact (ih rs2 hrs2 _ _).1
            · refine monoTrack_append _ _ a _ (modBlockAux_monoA (padPairs items items2) b a).1 ?_
              rw [(modBlockAux_monoA (padPairs items items2) b a).2]
              exact (ih rs2 hrs2 _ _).2
          | kept =>
            simp only [processChangesFuel]
            constructor
            · refine monoTrack_append _ _ b _ (removedLinesFrom_monoB items b).1 ?_
              rw [(removedLinesFrom_monoB items b).2]
              exact (ih _ hrs2' (b + items.length) a).1
            · refine monoTrack_append _ _ a _ (removedLinesFrom_monoA items b a).1 ?_
              rw [(removedLinesFrom_monoA items b a).2]
              exact (ih _ hrs2' (b + items.length) a).2
          | removed =>
            simp only [processChangesFuel]
            constructor
            · refine monoTrack_append _ _ b _ (removedLinesFrom_monoB items b).1 ?_
              rw [(removedLinesFrom_monoB items b).2]
              exact (ih _ hrs2' (b + items.length) a).1
            · refine monoTrack_append _ _ a _ (removedLinesFrom_monoA items b a).1 ?_
              rw [(removedLinesFrom_monoA items b a).2]
              exact (ih _ hrs2' (b + items.length) a).2

lemma shapeOK_removedLinesFrom : ∀ (ls : List String) (b : Nat) (l : DiffLine),
    l ∈ removedLinesFrom ls b → shapeOK l := by
  intro ls
  induction ls with
  | nil => intro b l hl; simp [removedLinesFrom] at hl
  | cons x xs ih =>
    intro b l hl
    rcases List.mem_cons.mp hl with h | h
    · subst h; simp [shapeOK]
    · exact ih (b + 1) l h

lemma shapeOK_addedLinesFrom : ∀ (ls : List String) (a : Nat) (l : DiffLine),
    l ∈ addedLinesFrom ls a → shapeOK l := by
  intro ls
  induction ls with
  | nil => intro a l hl; simp [addedLinesFrom] at hl
  | cons x xs ih =>
    intro a l hl
    rcases List.mem_cons.mp hl with h | h
    · subst h; simp [shapeOK]
    · exact ih (a + 1) l h

lemma shapeOK_unchangedLinesFrom : ∀ (ls : List String) (b a : Nat) (l : DiffLine),
    l ∈ unchangedLinesFrom ls b a → shapeOK l := by
  intro ls
  induction ls with
  | nil => intro b a l hl; simp [unchangedLinesFrom] at hl
  | cons x xs ih =>
    intro b a l hl
    rcases List.mem_cons.mp hl with h | h
    · subst h; simp [shapeOK]
    · exact ih (b + 1) (a + 1) l h

lemma shapeOK_modBlockAux : ∀ (ps : List (String × String)) (b a : Nat) (l : DiffLine),
    l ∈ modBlockAux ps b a → shapeOK l := by
  intro ps
  induction ps with
  | nil => intro b a l hl; simp [modBlockAux] at hl
  | cons p ps ih =>
    intro b a l hl
    obtain ⟨bl, al⟩ := p
    simp only [modBlockAux, List.mem_append] at hl
    rcases hl with (hl | hl) | hl
    · by_cases hb : bl = "" <;> simp [hb] at hl
      subst hl; simp [shapeOK]
    · by_cases ha : al = "" <;> simp [ha] at hl
      subst hl; simp [shapeOK]
    · exact ih _ _ l hl

lemma processChangesFuel_shape (config : DiffConfig) :
    ∀ (n : Nat) (runs : List (Run String)), runs.length ≤ n → ∀ b a (l : DiffLine),
      l ∈ processChangesFuel config n runs b a → shapeOK l := by
  intro n
  induction n with
  | zero =>
    intro runs h b a l hl
    have hr : runs = [] := List.eq_nil_of_length_eq_zero (Nat.le_zero.mp h)
    subst hr
    simp [processChangesFuel] at hl
  | succ n ih =>
    intro runs h b a l hl
    cases runs with
    | nil => simp [processChangesFuel] at hl
    | cons r rs =>
      obtain ⟨tag, items⟩ := r
      have hrs : rs.length ≤ n := by simp at h; omega
      cases tag with
      | kept =>
        by_cases hh : config.hideUnchangedRows
        · simp only [processChangesFuel, hh, if_true, List.nil_append] at hl
          exact ih rs hrs _ _ l hl
        · simp only [processChangesFuel, hh, if_false, Bool.false_eq_true,
            List.mem_append] at hl
          rcases hl with hl | hl
          · exact shapeOK_unchangedLinesFrom items b a l hl
          · exact ih rs hrs _ _ l hl
      | added =>
        simp only [processChangesFuel, List.mem_append] at hl
        rcases hl with hl | hl
        · exact shapeOK_addedLinesFrom items a l hl
        · exact ih rs hrs _ _ l hl
      | removed =>
        cases rs with
        | nil =>
          simp only [processChangesFuel, List.mem_append] at hl
          rcases hl with hl | hl
          · exact shapeOK_removedLinesFrom items b l hl
          · simp at hl
        | cons r2 rs2 =>
          obtain ⟨tag2, items2⟩ := r2
          have hrs2 : rs2.length ≤ n := by simp at h; omega
          have hrs2' : (Run.mk tag2 items2 :: rs2).length ≤ n := by simp at h ⊢; omega
          cases tag2 with
          | added =>
            simp only [processChangesFuel, List.mem_append] at hl
            rcases hl with hl | hl
            · exact shapeOK_modBlockAux (padPairs items items2) b a l hl
            · exact ih rs2 hrs2 _ _ l hl
          | kept =>
            simp only [processChangesFuel, List.mem_append] at hl
            rcases hl with hl | hl
            · exact shapeOK_removedLinesFrom items b l hl
            · exact ih _ hrs2' _ _ l hl
          | removed =>
            simp only [processChangesFuel, List.mem_append] at hl
            rcases hl with hl | hl
            · exact shapeOK_removedLinesFrom items b l hl
            · exact ih _ hrs2' _ _ l hl

/-- C5: every emitted unchanged line carries both line numbers and no word
changes, every removed line carries only the before number, every added
line carries only the after number, and within each of the before/after
tracks the line numbers start at 1 or later and strictly increase across
the whole output, for every input and config (hidden unchanged rows still
advance the counters). -/
theorem createDiffLines_invariants (beforeLines afterLines : List String)
    (config : DiffConfig) :
    (∀ l ∈ createDiffLines beforeLines afterLines config, shapeOK l) ∧
    monoTrack DiffLine.beforeLineNumber 1 (createDiffLines beforeLines afterLines config) ∧
    monoTrack DiffLine.afterLineNumber 1 (createDiffLines beforeLines afterLines config) := by
  refine ⟨fun l hl => ?_, ?_, ?_⟩
  · exact processChangesFuel_shape config _ _ le_rfl 1 1 l hl
  · exact (processChangesFuel_mono config _ _ le_rfl 1 1).1
  · exact (processChangesFuel_mono config _ _ le_rfl 1 1).2

/-- Witness for C5 at a concrete two-line input: the first emitted line is
unchanged with both numbers, and the whole output is monotone on the
before track. -/
theorem createDiffLines_invariants_witness :
    shapeOK ⟨DiffLineType.unchanged, "x", some 1, some 1, none⟩ ∧
    monoTrack DiffLine.beforeLineNumber 1
      (createDiffLines ["x", "a"] ["x", "b"] ⟨DiffMode.text, false, false, false⟩) := by
  constructor
  · exact (createDiffLines_invariants ["x", "a"] ["x", "b"]
      ⟨DiffMode.text, false, false, false⟩).1
      ⟨DiffLineType.unchanged, "x", some 1, some 1, none⟩ (by decide)
  · exact (createDiffLines_invariants ["x", "a"] ["x", "b"]
      ⟨DiffMode.text, false, false, false⟩).2.1

/-! ## C6: modification blocks -/

lemma padLeft_length (ys : List String) : (padLeft ys).length = ys.length := by
  induction ys with
  | nil => rfl
  | cons y ys ih => simp [padLeft, ih]

lemma padLeft_getD : ∀ (ys : List String) (j : Nat), j < ys.length →
    (padLeft ys).getD j ("", "") = ("", ys.getD j "") := by
  intro ys
  induction ys with
  | nil => intro j hj; simp at hj
  | cons y ys ih =>
    intro j hj
    cases j with
    | zero => simp [padLeft, List.getD]
    | succ j =>
      simp only [padLeft, List.getD_cons_succ]
      exact ih j (by simpa using Nat.lt_of_succ_lt_succ hj)

lemma padPairs_length : ∀ (xs ys : List String),
    (padPairs xs ys).length = max xs.length ys.length := by
  intro xs
  induction xs with
  | nil => intro ys; simp [padPairs, padLeft_length]
  | cons x xs ih =>
    intro ys
    simp only [padPairs, List.length_cons, ih (ys.drop 1), List.length_drop]
    omega

lemma headD_eq_getD_zero (ys : List String) : ys.headD "" = ys.getD 0 "" := by
  cases ys <;> simp [List.getD]

lemma getD_drop_one (ys : List String) (j : Nat) :
    (ys.drop 1).getD j "" = ys.getD (j + 1) "" := by
  cases ys <;> simp [List.getD]

lemma padPairs_getD : ∀ (xs ys : List String) (j : Nat),
    j < max xs.length ys.length →
    (padPairs xs ys).getD j ("", "") = (xs.getD j "", ys.getD j "") := by
  intro xs
  induction xs with
  | nil =>
    intro ys j hj
    simp only [padPairs]
    rw [padLeft_getD ys j (by simpa using hj)]
    simp [List.getD]
  | cons x xs ih =>
    intro ys j hj
    cases j with
    | zero =>
      simp only [padPairs, List.getD_cons_zero, headD_eq_getD_zero]
    | succ j =>
      simp only [padPairs, List.getD_cons_succ]
      rw [ih (ys.drop 1) j (by simp [List.length_drop] at hj ⊢; omega), getD_drop_one]

lemma modBlockAux_wordChanges : ∀ (ps : List (String × String)) (b a : Nat) (l : DiffLine),
    l ∈ modBlockAux ps b a →
    ∃ p ∈ ps, l.wordChanges = some (computeWordChanges p.1 p.2) ∧
      (l.type = DiffLineType.removed → l.content = p.1) ∧
      (l.type = DiffLineType.added → l.content = p.2) := by
  intro ps
  induction ps with
  | nil => intro b a l hl; simp [modBlockAux] at hl
  | cons p ps ih =>
    intro b a l hl
    obtain ⟨bl, al⟩ := p
    simp only [modBlockAux, List.mem_append] at hl
    rcases hl with (hl | hl) | hl
    · by_cases hb : bl = "" <;> simp [hb] at hl
      subst hl
      exact ⟨(bl, al), List.mem_cons_self _ _, rfl, fun _ => rfl, by intro h; simp at h⟩
    · by_cases ha : al = "" <;> simp [ha] at hl
      subst hl
      exact ⟨(bl, al), List.mem_cons_self _ _, rfl, by intro h; simp at h, fun _ => rfl⟩
    · obtain ⟨q, hq, hrest⟩ := ih _ _ l hl
      exact ⟨q, List.mem_cons_of_mem _ hq, hrest⟩

/-- C6: a removed run immediately followed by an added run is processed as
one modification block and the added run is consumed (never reprocessed);
the removed and added lines are paired positionally up to the longer side's
length; every line emitted by a block carries the word changes computed for
its own pair; and the concrete scenario "line1/line2/line3" versus
"line1/changed/line3" yields exactly the four expected DiffLines, with the
removed and added middle lines carrying the same word changes. -/
theorem createDiffLines_modification_blocks :
    (∀ (config : DiffConfig) (n : Nat) (rl al : List String) (rs : List (Run String))
        (b a : Nat),
      processChangesFuel config (n + 1) (⟨.removed, rl⟩ :: ⟨.added, al⟩ :: rs) b a =
        modBlockAux (padPairs rl al) b a ++
          processChangesFuel config n rs
            (b + cntB (padPairs rl al)) (a + cntA (padPairs rl al))) ∧
    (∀ rl al : List String, (padPairs rl al).length = max rl.length al.length) ∧
    (∀ (rl al : List String) (j : Nat), j < max rl.length al.length →
      (padPairs rl al).getD j ("", "") = (rl.getD j "", al.getD j "")) ∧
    (∀ (ps : List (String × String)) (b a : Nat) (l : DiffLine),
      l ∈ modBlockAux ps b a →
      ∃ p ∈ ps, l.wordChanges = some (computeWordChanges p.1 p.2)) ∧
    (∀ config : DiffConfig, config.hideUnchangedRows = false →
      computeTextDiff "line1\nline2\nline3" "line1\nchanged\nline3" config =
        [⟨.unchanged, "line1", some 1, some 1, none⟩,
         ⟨.removed, "line2", some 2, none,
           some [⟨"line2", false, true⟩, ⟨"changed", true, false⟩]⟩,
         ⟨.added, "changed", none, some 2,
           some [⟨"line2", false, true⟩, ⟨"changed", true, false⟩]⟩,
         ⟨.unchanged, "line3", some 3, some 3, none⟩]) := by
  refine ⟨fun config n rl al rs b a => rfl, padPairs_length, padPairs_getD,
    fun ps b a l hl => ?_, fun config hh => ?_⟩
  · obtain ⟨p, hp, hwc, _, _⟩ := modBlockAux_wordChanges ps b a l hl
    exact ⟨p, hp, hwc⟩
  · obtain ⟨m, hu, ba, fr⟩ := config
    simp only at hh
    subst hh
    cases m <;> cases ba <;> cases fr <;> decide

/-- Witness for C6: the block equation, the positional pairing and the
concrete scenario at concrete inputs. -/
theorem createDiffLines_modification_blocks_witness :
    (padPairs ["a", "b"] ["c"]).getD 1 ("", "") = ("b", "") ∧
    computeTextDiff "line1\nline2\nline3" "line1\nchanged\nline3"
        ⟨DiffMode.text, false, false, false⟩ =
      [⟨.unchanged, "line1", some 1, some 1, none⟩,
       ⟨.removed, "line2", some 2, none,
         some [⟨"line2", false, true⟩, ⟨"changed", true, false⟩]⟩,
       ⟨.added, "changed", none, some 2,
         some [⟨"line2", false, true⟩, ⟨"changed", true, false⟩]⟩,
       ⟨.unchanged, "line3", some 3, some 3, none⟩] := by
  constructor
  · exact (createDiffLines_modification_blocks.2.2.1 ["a", "b"] ["c"] 1 (by decide)).trans
      (by decide)
  · exact createDiffLines_modification_blocks.2.2.2.2 ⟨DiffMode.text, false, false, false⟩ rfl

/-! ## C7: round-trip helper lemmas -/

lemma range_map_getD {α β : Type} (d : α) (f : α → β) :
    ∀ r : List α, (List.range r.length).map (fun j => f (r.getD j d)) = r.map f := by
  intro r
  induction r with
  | nil => rfl
  | cons x xs ih =>
    rw [List.length_cons, List.range_succ_eq_map, List.map_cons, List.map_map, List.map_cons]
    refine congrArg (f x :: ·) ?_
    rw [← ih]
    rfl

lemma filterMap_eq_map_of_some {α β : Type} (f : α → Option β) (g : α → β) :
    ∀ l : List α, (∀ x ∈ l, f x = some (g x)) → l.filterMap f = l.map g := by
  intro l
  induction l with
  | nil => intro _; rfl
  | cons x xs ih =>
    intro h
    rw [List.filterMap_cons, h x (List.mem_cons_self x xs), List.map_cons,
      ih (fun y hy => h y (List.mem_cons_of_mem x hy))]

lemma createDiffCells_self (r : CSVRow) :
    createDiffCells r r =
      r.map (fun c =>
        ⟨stripCsvFormattingQuotes c, stripCsvFormattingQuotes c, false, []⟩) := by
  unfold createDiffCells
  rw [Nat.max_self]
  rw [← range_map_getD "" (fun c =>
    (⟨stripCsvFormattingQuotes c, stripCsvFormattingQuotes c, false, []⟩ : DiffCell)) r]
  apply List.map_congr_left
  intro j _
  simp

lemma flatMap_singleton {α β : Type} (f : α → β) :
    ∀ l : List α, (l.flatMap fun x => [f x]) = l.map f := by
  intro l
  induction l with
  | nil => rfl
  | cons x xs ih => simp [List.flatMap_cons, ih]

lemma generateCSVHeadersWithBeforeAfter_empty (hs : List String) :
    generateCSVHeadersWithBeforeAfter hs [] = hs := by
  unfold generateCSVHeadersWithBeforeAfter
  simp only [List.contains_nil, Bool.false_eq_true, if_false, false_and, ite_false]
  rw [flatMap_singleton (fun p : Nat × String => p.2) hs.enum, List.enum_map_snd]

lemma generateCsvHeaders_empty (m : Nat) (config : DiffConfig) :
    generateCsvHeaders m [] config =
      (List.range m).map (fun j => "Column " ++ toString (j + 1)) := by
  unfold generateCsvHeaders
  simp only [List.contains_nil, Bool.false_eq_true, and_false, if_false, ite_false]
  exact flatMap_singleton (fun j => "Column " ++ toString (j + 1)) (List.range m)

lemma parseAux_nil (inQ : Bool) (cur : List Char) (res : List (List Char)) :
    parseCsvLineAux inQ [] cur res = res ++ [cur] := by
  cases inQ <;> rfl

lemma parseAux_true_qq (cs : List Char) (cur : List Char) (res : List (List Char)) :
    parseCsvLineAux true ('"' :: '"' :: cs) cur res =
      parseCsvLineAux true cs (cur ++ ['"']) res := rfl

lemma parseAux_true_q_nil (cur : List Char) (res : List (List Char)) :
    parseCsvLineAux true ['"'] cur res = res ++ [cur] := rfl

lemma parseAux_true_q_cons (d : Char) (cs2 cur : List Char) (res : List (List Char))
    (hd : d ≠ '"') :
    parseCsvLineAux true ('"' :: d :: cs2) cur res =
      parseCsvLineAux false (d :: cs2) cur res := by
  simp [parseCsvLineAux, hd]

lemma parseAux_false_q (cs cur : List Char) (res : List (List Char)) :
    parseCsvLineAux false ('"' :: cs) cur res = parseCsvLineAux true cs cur res := rfl

lemma parseAux_false_comma (cs cur : List Char) (res : List (List Char)) :
    parseCsvLineAux false (',' :: cs) cur res =
      parseCsvLineAux false cs [] (res ++ [cur]) := rfl

lemma parseAux_false_other (c : Char) (cs cur : List Char) (res : List (List Char))
    (hq : c ≠ '"') (hc : c ≠ ',') :
    parseCsvLineAux false (c :: cs) cur res =
      parseCsvLineAux false cs (cur ++ [c]) res := by
  simp [parseCsvLineAux, hq, hc]

lemma parseCsvLineAux_ne_nil :
    ∀ (n : Nat) (l : List Char), l.length ≤ n →
      ∀ (inQ : Bool) (cur : List Char) (res : List (List Char)),
        parseCsvLineAux inQ l cur res ≠ [] := by
  intro n
  induction n with
  | zero =>
    intro l h inQ cur res
    have hl : l = [] := List.eq_nil_of_length_eq_zero (Nat.le_zero.mp h)
    subst hl
    rw [parseAux_nil]
    simp
  | succ n ih =>
    intro l h inQ cur res
    cases l with
    | nil =>
      rw [parseAux_nil]
      simp
    | cons c cs =>
      have hcs : cs.length ≤ n := by simp at h; omega
      cases inQ with
      | false =>
        by_cases hq : c = '"'
        · subst hq
          rw [parseAux_false_q]
          exact ih cs hcs true cur res
        · by_cases hc : c = ','
          · subst hc
            rw [parseAux_false_comma]
            exact ih cs hcs false [] (res ++ [cur])
          · rw [parseAux_false_other c cs cur res hq hc]
            exact ih cs hcs false (cur ++ [c]) res
      | true =>
        by_cases hq : c = '"'
        · subst hq
          cases cs with
          | nil =>
            rw [parseAux_true_q_nil]
            simp
          | cons d cs2 =>
            have hcs2 : cs2.length ≤ n := by simp at h; omega
            by_cases hd : d = '"'
            · subst hd
              rw [parseAux_true_qq]
              exact ih cs2 hcs2 true (cur ++ ['"']) res
            · rw [parseAux_true_q_cons d cs2 cur res hd]
              exact ih (d :: cs2) (by simp at h ⊢; omega) false cur res
        · rw [parseAux_true_cons c hq cs cur res]
          exact ih cs hcs true (cur ++ [c]) res

lemma parseCsvLine_ne_nil (line : String) : parseCsvLine line ≠ [] := by
  unfold parseCsvLine
  intro hcontra
  have := List.map_eq_nil_iff.mp hcontra
  exact parseCsvLineAux_ne_nil _ _ le_rfl false [] [] this

lemma parseCsvToRows_row_ne_nil (t : String) : ∀ r ∈ parseCsvToRows t, r ≠ [] := by
  intro r hr
  unfold parseCsvToRows at hr
  obtain ⟨l, _, hl⟩ := List.mem_map.mp hr
  exact hl ▸ parseCsvLine_ne_nil (String.mk l)

lemma snd_mem_of_mem_enum {α : Type} {l : List α} {p : Nat × α} (h : p ∈ l.enum) :
    p.2 ∈ l := by
  rw [← List.enum_map_snd l]
  exact List.mem_map_of_mem Prod.snd h

lemma enum_foldl_no_changes :
    ∀ (l : List (Nat × DiffCell)) (acc : List Nat), (∀ p ∈ l, p.2.hasChange = false) →
      l.foldl (fun acc2 p => if p.2.hasChange then setAdd acc2 p.1 else acc2) acc = acc := by
  intro l
  induction l with
  | nil => intro acc _; rfl
  | cons p ps ih =>
    intro acc h
    rw [List.foldl_cons, if_neg (by simp [h p (List.mem_cons_self p ps)])]
    exact ih acc (fun q hq => h q (List.mem_cons_of_mem p hq))

lemma detectChangedColumns_no_changes :
    ∀ rows : List DiffRow, (∀ row ∈ rows, ∀ cell ∈ row.cells, cell.hasChange = false) →
      detectChangedColumns rows = [] := by
  have haux : ∀ (rows : List DiffRow) (acc : List Nat),
      (∀ row ∈ rows, ∀ cell ∈ row.cells, cell.hasChange = false) →
      rows.foldl (fun acc row =>
        row.cells.enum.foldl (fun acc2 p =>
          if p.2.hasChange then setAdd acc2 p.1 else acc2) acc) acc = acc := by
    intro rows
    induction rows with
    | nil => intro acc _; rfl
    | cons row rows ih =>
      intro acc h
      rw [List.foldl_cons, enum_foldl_no_changes _ acc
        (fun p hp => h row (List.mem_cons_self row rows) p.2 (snd_mem_of_mem_enum hp))]
      exact ih acc (fun r hr => h r (List.mem_cons_of_mem row hr))
  intro rows h
  exact haux rows [] h

lemma foldl_max_init : ∀ (l : List Nat) (a : Nat),
    l.foldl Nat.max a = Nat.max a (l.foldl Nat.max 0) := by
  intro l
  induction l with
  | nil => intro a; simp
  | cons x xs ih =>
    intro a
    rw [List.foldl_cons, List.foldl_cons, ih (Nat.max a x), ih (Nat.max 0 x)]
    simp [Nat.max_assoc]

lemma listMax_append (l1 l2 : List Nat) :
    listMax (l1 ++ l2) = Nat.max (listMax l1) (listMax l2) := by
  unfold listMax
  rw [List.foldl_append, foldl_max_init l2 (List.foldl Nat.max 0 l1)]

lemma listMax_self_append (l : List Nat) : listMax (l ++ l) = listMax l := by
  rw [listMax_append]
  exact Nat.max_self _

lemma le_listMax_of_mem : ∀ {l : List Nat} {x : Nat}, x ∈ l → x ≤ listMax l := by
  intro l
  induction l with
  | nil => intro x hx; simp at hx
  | cons y ys ih =>
    intro x hx
    unfold listMax at ih ⊢
    rw [List.foldl_cons, foldl_max_init ys (Nat.max 0 y)]
    rcases List.mem_cons.mp hx with h | h
    · subst h
      exact le_max_of_le_left (Nat.le_max_right 0 x)
    · exact le_max_of_le_right (ih h)

lemma createDiffRowsWithOffset_self (d : List CSVRow) (hne : ∀ r ∈ d, r ≠ [])
    (config : DiffConfig) (off : Nat) (hh : config.hideUnchangedRows = false) :
    createDiffRowsWithOffset d d config off =
      (List.range d.length).map (fun i =>
        ⟨i + 1 + off,
         (d.getD i []).map (fun c =>
           ⟨stripCsvFormattingQuotes c, stripCsvFormattingQuotes c, false, []⟩),
         false⟩) := by
  unfold createDiffRowsWithOffset
  rw [Nat.max_self]
  apply filterMap_eq_map_of_some
  intro i hi
  have hilt : i < d.length := List.mem_range.mp hi
  have hrne : d.getD i [] ≠ [] := by
    rw [List.getD_eq_getElem d [] hilt]
    exact hne _ (List.getElem_mem hilt)
  have hlen : ¬((d.getD i []).length = 0 ∧ (d.getD i []).length = 0) := by
    simp only [List.length_eq_zero, and_self]
    exact hrne
  rw [if_neg hlen, createDiffCells_self]
  have hany : ((d.getD i []).map (fun c =>
      (⟨stripCsvFormattingQuotes c, stripCsvFormattingQuotes c, false, []⟩ : DiffCell))).any
      (fun c => c.hasChange) = false := by
    induction d.getD i [] with
    | nil => rfl
    | cons c cs _ => simp
  show (let cells := (d.getD i []).map (fun c =>
      (⟨stripCsvFormattingQuotes c, stripCsvFormattingQuotes c, false, []⟩ : DiffCell));
    let hasChanges := cells.any fun c => c.hasChange;
    if ¬config.hideUnchangedRows = true ∨ hasChanges = true then
      some (⟨i + 1 + off, cells, hasChanges⟩ : DiffRow)
    else none) = _
  simp only [hany, hh]
  rw [if_pos (Or.inl (by simp))]

lemma extractCsvHeaders_self (rows : List CSVRow) (h : 0 < rows.length) :
    extractCsvHeaders rows rows = (rows.headD []).map stripCsvFormattingQuotes := by
  cases rows with
  | nil => simp at h
  | cons r rs =>
    unfold extractCsvHeaders
    simp

lemma dataOf_ne_nil (a : String) (config : DiffConfig) : dataOf a config ≠ [] := by
  have hpos := parseCsvToRows_length_pos a
  unfold dataOf
  by_cases hf : config.firstRowIsHeader
  · by_cases h1 : 1 < (parseCsvToRows a).length
    · simp only [hf, h1, if_true]
      intro hcontra
      have := congrArg List.length hcontra
      simp [List.length_tail] at this
      omega
    · simp only [hf, h1, if_true, if_false]
      intro hcontra
      rw [hcontra] at hpos
      simp at hpos
  · simp only [hf, if_false, Bool.false_eq_true]
    intro hcontra
    rw [hcontra] at hpos
    simp at hpos

lemma dataOf_row_ne_nil (a : String) (config : DiffConfig) :
    ∀ r ∈ dataOf a config, r ≠ [] := by
  intro r hr
  apply parseCsvToRows_row_ne_nil a
  unfold dataOf at hr
  by_cases hf : config.firstRowIsHeader
  · by_cases h1 : 1 < (parseCsvToRows a).length
    · simp only [hf, h1, if_true] at hr
      exact List.mem_of_mem_tail hr
    · simp only [hf, h1, if_true, if_false] at hr
      exact hr
  · simp only [hf, if_false, Bool.false_eq_true] at hr
    exact hr

lemma createCsvDiffTable_self (a : String) (config : DiffConfig)
    (hh : config.hideUnchangedRows = false) :
    (createCsvDiffTable a a config).rows =
      (List.range (dataOf a config).length).map (fun i =>
        ⟨i + 1 + (if config.firstRowIsHeader then 1 else 0),
         ((dataOf a config).getD i []).map (fun c =>
           ⟨stripCsvFormattingQuotes c, stripCsvFormattingQuotes c, false, []⟩),
         false⟩) ∧
    (createCsvDiffTable a a config).headers =
      (if config.firstRowIsHeader
        then ((parseCsvToRows a).headD []).map stripCsvFormattingQuotes
        else (List.range (listMax ((dataOf a config).map List.length))).map
          (fun j => "Column " ++ toString (j + 1))) := by
  have hpos := parseCsvToRows_length_pos a
  have hd_ne := dataOf_row_ne_nil a config
  have hrows_eq : createDiffRowsWithOffset (dataOf a config) (dataOf a config) config
      (if config.firstRowIsHeader then 1 else 0) =
      (List.range (dataOf a config).length).map (fun i =>
        ⟨i + 1 + (if config.firstRowIsHeader then 1 else 0),
         ((dataOf a config).getD i []).map (fun c =>
           ⟨stripCsvFormattingQuotes c, stripCsvFormattingQuotes c, false, []⟩),
         false⟩) :=
    createDiffRowsWithOffset_self (dataOf a config) hd_ne config _ hh
  have hno : ∀ row ∈ (List.range (dataOf a config).length).map (fun i =>
      (⟨i + 1 + (if config.firstRowIsHeader then 1 else 0),
       ((dataOf a config).getD i []).map (fun c =>
         ⟨stripCsvFormattingQuotes c, stripCsvFormattingQuotes c, false, []⟩),
       false⟩ : DiffRow)), ∀ cell ∈ row.cells, cell.hasChange = false := by
    intro row hrow cell hcell
    obtain ⟨i, _, hrow⟩ := List.mem_map.mp hrow
    subst hrow
    simp only at hcell
    obtain ⟨c, _, hcell⟩ := List.mem_map.mp hcell
    subst hcell
    rfl
  unfold createCsvDiffTable
  by_cases hf : config.firstRowIsHeader
  · simp only [hf, if_true] at hrows_eq hno
    have hdata : (if 1 < (parseCsvToRows a).length then (parseCsvToRows a).tail
        else parseCsvToRows a) = dataOf a config := by
      unfold dataOf
      rw [if_pos hf]
    by_cases h1 : 1 < (parseCsvToRows a).length
    · simp only [hf, hpos, h1, and_true, true_and, and_self, if_true,
        not_true_eq_false, if_false]
      rw [if_pos h1] at hdata
      rw [hdata, hrows_eq]
      refine ⟨rfl, ?_⟩
      rw [extractCsvHeaders_self _ hpos]
      by_cases hba : config.beforeAfterColumn
      · simp only [hba, if_true]
        rw [detectChangedColumns_no_changes _ hno,
          generateCSVHeadersWithBeforeAfter_empty]
      · simp only [hba, Bool.false_eq_true, if_false]
    · simp only [hf, hpos, h1, and_true, true_and, and_self, and_false, if_true,
        not_true_eq_false, if_false]
      rw [if_neg h1] at hdata
      rw [hdata, hrows_eq]
      refine ⟨rfl, ?_⟩
      have hpos' : 0 < (dataOf a config).length := hdata ▸ hpos
      rw [extractCsvHeaders_self _ hpos']
      by_cases hba : config.beforeAfterColumn
      · simp only [hba, if_true]
        rw [detectChangedColumns_no_changes _ hno,
          generateCSVHeadersWithBeforeAfter_empty]
      · simp only [hba, Bool.false_eq_true, if_false]
  · simp only [hf, Bool.false_eq_true, if_false] at hrows_eq hno
    have hdata : dataOf a config = parseCsvToRows a := by
      unfold dataOf
      rw [if_neg hf]
    simp only [hf, Bool.false_eq_true, false_and, and_false, if_false,
      not_false_eq_true, if_true]
    rw [← hdata, hrows_eq]
    refine ⟨rfl, ?_⟩
    rw [listMax_self_append]
    by_cases hba : config.beforeAfterColumn
    · simp only [hba, if_true]
      rw [detectChangedColumns_no_changes _ hno, generateCsvHeaders_empty]
    · simp only [hba, Bool.false_eq_true, if_false]
      rw [generateCsvHeaders_empty]

lemma headD_mem {α : Type} {l : List α} (h : l ≠ []) (d : α) : l.headD d ∈ l := by
  cases l with
  | nil => exact absurd rfl h
  | cons x xs => simp

lemma canonicalQuotedCsv_eq (a : String) (config : DiffConfig) :
    canonicalQuotedCsv a config =
      strJoinSep "\n"
        (strJoinSep ","
            ((if config.firstRowIsHeader
                then ((parseCsvToRows a).headD []).map stripCsvFormattingQuotes
                else (List.range (listMax ((dataOf a config).map List.length))).map
                  (fun j => "Column " ++ toString (j + 1))).map encodeCSVField) ::
          (dataOf a config).map (fun r =>
            strJoinSep "," (r.map (fun c => encodeCSVField (stripCsvFormattingQuotes c))))) :=
  rfl

lemma flatMap_enum_after (cells : List DiffCell) (cfgB : Bool) :
    (cells.enum.flatMap (fun p =>
      if cfgB ∧ ([] : List Nat).contains p.1 then
        [encodeCSVField p.2.before, encodeCSVField p.2.after]
      else [encodeCSVField p.2.after])) =
      cells.map (fun c => encodeCSVField c.after) := by
  simp only [List.contains_nil, Bool.false_eq_true, and_false, if_false, ite_false]
  rw [flatMap_singleton (fun p : Nat × DiffCell => encodeCSVField p.2.after)]
  rw [show (fun p : Nat × DiffCell => encodeCSVField p.2.after) =
    ((fun c : DiffCell => encodeCSVField c.after) ∘ Prod.snd) from rfl]
  rw [← List.map_map, List.enum_map_snd]

/-- C7 (amended): for identical inputs `a`/`a` and any config with
`hideUnchangedRows = false`, exporting the diff table reproduces the quoted
CSV of the header-plus-data structure of `a`: the header line per the
configuration, then one line per data row (the data split follows the code:
a single-row side keeps its row), every field stripped of formatting-only
quotes and individually quoted with internal quotes doubled, fields joined
by commas, lines joined by newline with no trailing newline.  With
`hideUnchangedRows = true` all unchanged data rows are dropped from the
table, so the claim fails for such configs. -/
theorem exportCsv_roundTrip (a : String) (config : DiffConfig)
    (hh : config.hideUnchangedRows = false) :
    exportDiffTableToCsv (createCsvDiffTable a a config) config =
      canonicalQuotedCsv a config := by
  obtain ⟨hrows, hheaders⟩ := createCsvDiffTable_self a config hh
  have hno : ∀ row ∈ (createCsvDiffTable a a config).rows, ∀ cell ∈ row.cells,
      cell.hasChange = false := by
    rw [hrows]
    intro row hrow cell hcell
    obtain ⟨i, _, h⟩ := List.mem_map.mp hrow
    subst h
    simp only at hcell
    obtain ⟨c, _, h⟩ := List.mem_map.mp hcell
    subst h
    rfl
  have hdet : detectChangedColumns (createCsvDiffTable a a config).rows = [] :=
    detectChangedColumns_no_changes _ hno
  have hchanged : (if config.beforeAfterColumn then
      detectChangedColumns (createCsvDiffTable a a config).rows else []) = [] := by
    by_cases hba : config.beforeAfterColumn <;> simp [hba, hdet]
  have hhne : 0 < (createCsvDiffTable a a config).headers.length := by
    rw [hheaders]
    by_cases hf : config.firstRowIsHeader
    · simp only [hf, if_true, List.length_map]
      have hne : parseCsvToRows a ≠ [] := by
        intro hcontra
        have := parseCsvToRows_length_pos a
        rw [hcontra] at this
        simp at this
      have hmem := headD_mem hne ([] : CSVRow)
      have := parseCsvToRows_row_ne_nil a _ hmem
      exact List.length_pos.mpr this
    · simp only [hf, Bool.false_eq_true, if_false, List.length_map, List.length_range]
      have hdne := dataOf_ne_nil a config
      have hmem := headD_mem hdne ([] : CSVRow)
      have hrne := dataOf_row_ne_nil a config _ hmem
      have hlen : 0 < ((dataOf a config).headD []).length := List.length_pos.mpr hrne
      have hmm : ((dataOf a config).headD []).length ∈ (dataOf a config).map List.length :=
        List.mem_map_of_mem List.length hmem
      have := le_listMax_of_mem hmm
      omega
  unfold exportDiffTableToCsv
  rw [hchanged, if_pos hhne, canonicalQuotedCsv_eq]
  apply congrArg (strJoinSep "\n")
  rw [List.singleton_append]
  congr 1
  · rw [hheaders]
  · rw [hrows, List.map_map]
    have hbody : ((fun row : DiffRow => strJoinSep "," (row.cells.enum.flatMap (fun p =>
        if config.beforeAfterColumn ∧ ([] : List Nat).contains p.1 then
          [encodeCSVField p.2.before, encodeCSVField p.2.after]
        else [encodeCSVField p.2.after]))) ∘ (fun i =>
          (⟨i + 1 + (if config.firstRowIsHeader then 1 else 0),
            ((dataOf a config).getD i []).map (fun c =>
              ⟨stripCsvFormattingQuotes c, stripCsvFormattingQuotes c, false, []⟩),
            false⟩ : DiffRow))) =
        fun i => strJoinSep ","
          (((dataOf a config).getD i []).map (fun c =>
            encodeCSVField (stripCsvFormattingQuotes c))) := by
      funext i
      simp only [Function.comp]
      rw [flatMap_enum_after _ config.beforeAfterColumn, List.map_map]
      rfl
    rw [hbody, range_map_getD [] (fun r => strJoinSep ","
      (r.map (fun c => encodeCSVField (stripCsvFormattingQuotes c)))) (dataOf a config)]

/-- Witness for C7's amended round-trip at a concrete two-row CSV with a
header row. -/
theorem exportCsv_roundTrip_witness :
    exportDiffTableToCsv
        (createCsvDiffTable "n,v\n1,2" "n,v\n1,2" ⟨DiffMode.csv, false, false, true⟩)
        ⟨DiffMode.csv, false, false, true⟩ =
      canonicalQuotedCsv "n,v\n1,2" ⟨DiffMode.csv, false, false, true⟩ :=
  exportCsv_roundTrip "n,v\n1,2" ⟨DiffMode.csv, false, false, true⟩ rfl

/-- C7 counterexample: with `hideUnchangedRows = true` and identical inputs
every data row is unchanged and dropped, so the export is the header line
alone and does not reproduce the header-plus-data structure of the input. -/
theorem exportCsv_roundTrip_counterexample :
    exportDiffTableToCsv (createCsvDiffTable "x\ny" "x\ny" ⟨DiffMode.csv, true, false, false⟩)
        ⟨DiffMode.csv, true, false, false⟩ = "\"Column 1\"" ∧
    canonicalQuotedCsv "x\ny" ⟨DiffMode.csv, true, false, false⟩ =
      "\"Column 1\"\n\"x\"\n\"y\"" ∧
    exportDiffTableToCsv (createCsvDiffTable "x\ny" "x\ny" ⟨DiffMode.csv, true, false, false⟩)
        ⟨DiffMode.csv, true, false, false⟩ ≠
      canonicalQuotedCsv "x\ny" ⟨DiffMode.csv, true, false, false⟩ := by
  refine ⟨by decide, by decide, by decide⟩

/-! ## C9: totality and degenerate inputs -/

lemma createDiffRowsWithOffset_length_le (br ar : List CSVRow) (config : DiffConfig)
    (off : Nat) :
    (createDiffRowsWithOffset br ar config off).length ≤ max br.length ar.length := by
  unfold createDiffRowsWithOffset
  calc (List.filterMap _ (List.range (max br.length ar.length))).length
      ≤ (List.range (max br.length ar.length)).length := List.length_filterMap_le _ _
    _ = max br.length ar.length := List.length_range _

/-- C9: the pipeline functions of this embedding are total by construction
(every definition is a terminating function on all inputs), and the
degenerate inputs are ordinary branches: empty text parses to one empty
line and diffs to a single unchanged line; rows of mismatched lengths are
padded with empty cells up to the longer side (the cell list has exactly
the longer length); and the CSV table never has more rows than the longer
parsed input. -/
theorem pipeline_totality :
    parseTextToLines "" = [""] ∧
    (∀ config : DiffConfig, config.hideUnchangedRows = false →
      computeTextDiff "" "" config =
        [⟨DiffLineType.unchanged, "", some 1, some 1, none⟩]) ∧
    (∀ beforeRow afterRow : CSVRow,
      (createDiffCells beforeRow afterRow).length =
        max beforeRow.length afterRow.length) ∧
    (∀ (a b : String) (config : DiffConfig),
      (computeCsvDiff a b config).rows.length ≤
        max (parseCsvToRows a).length (parseCsvToRows b).length) := by
  refine ⟨rfl, fun config hh => ?_, fun beforeRow afterRow => ?_, fun a b config => ?_⟩
  · obtain ⟨m, hu, ba, fr⟩ := config
    simp only at hh
    subst hh
    cases m <;> cases ba <;> cases fr <;> decide
  · simp [createDiffCells]
  · unfold computeCsvDiff createCsvDiffTable
    dsimp only
    refine le_trans (createDiffRowsWithOffset_length_le _ _ _ _) ?_
    have hB : (if (config.firstRowIsHeader ∧ 0 < (parseCsvToRows a).length ∧
        0 < (parseCsvToRows b).length) ∧ 1 < (parseCsvToRows a).length then
        (parseCsvToRows a).tail else parseCsvToRows a).length ≤
        (parseCsvToRows a).length := by
      split
      · simp [List.length_tail]
      · exact le_rfl
    have hA : (if (config.firstRowIsHeader ∧ 0 < (parseCsvToRows a).length ∧
        0 < (parseCsvToRows b).length) ∧ 1 < (parseCsvToRows b).length then
        (parseCsvToRows b).tail else parseCsvToRows b).length ≤
        (parseCsvToRows b).length := by
      split
      · simp [List.length_tail]
      · exact le_rfl
    exact max_le_max hB hA

/-- Witness for C9 at concrete degenerate inputs. -/
theorem pipeline_totality_witness :
    computeTextDiff "" "" ⟨DiffMode.text, false, false, false⟩ =
      [⟨DiffLineType.unchanged, "", some 1, some 1, none⟩] ∧
    (createDiffCells ["a"] ["b", "c"]).length = 2 :=
  ⟨pipeline_totality.2.1 ⟨DiffMode.text, false, false, false⟩ rfl,
   (pipeline_totality.2.2.1 ["a"] ["b", "c"]).trans (by decide)⟩

/-! ## C10: parsing always yields at least one row -/

lemma extractCsvHeaders_after (br ar : List CSVRow) (h : 0 < ar.length) :
    extractCsvHeaders br ar = (ar.headD []).map stripCsvFormattingQuotes := by
  cases ar with
  | nil => simp at h
  | cons r rs =>
    unfold extractCsvHeaders
    simp

/-- C10: `parseCsvToRows` returns at least one row for every input (the
empty string parses to one row holding one empty cell), so the header
branch's nonemptiness guard in `createCsvDiffTable` always holds: with
`firstRowIsHeader` set (and no before/after expansion) the headers are
extracted from the after side's first row, even when the inputs are empty
strings. -/
theorem parseCsvToRows_never_empty :
    (∀ text : String, 0 < (parseCsvToRows text).length) ∧
    parseCsvToRows "" = [[""]] ∧
    (∀ (a b : String) (config : DiffConfig), config.firstRowIsHeader = true →
      config.beforeAfterColumn = false →
      (createCsvDiffTable a b config).headers =
        ((parseCsvToRows b).headD []).map stripCsvFormattingQuotes) ∧
    (createCsvDiffTable "" "" ⟨DiffMode.csv, false, false, true⟩).headers = [""] := by
  refine ⟨parseCsvToRows_length_pos, by decide, fun a b config hf hba => ?_, by decide⟩
  have hpa := parseCsvToRows_length_pos a
  have hpb := parseCsvToRows_length_pos b
  unfold createCsvDiffTable
  simp only [hf, hpa, hpb, and_true, true_and, and_self, if_true, not_true_eq_false,
    if_false, hba, Bool.false_eq_true]
  exact extractCsvHeaders_after _ _ hpb

/-- Witness for C10's header extraction at concrete inputs, one of them the
empty string. -/
theorem parseCsvToRows_never_empty_witness :
    (createCsvDiffTable "" "x,y" ⟨DiffMode.csv, false, false, true⟩).headers = ["x", "y"] := by
  have h := parseCsvToRows_never_empty.2.2.1 "" "x,y" ⟨DiffMode.csv, false, false, true⟩ rfl rfl
  exact h.trans (by decide)

end Differ
